import Mathlib

/-!
Verification development for the jp2tw-captioner pipeline (src/main.rs).

The external HTTP services (OpenAI Whisper transcription and chat
translation) are modelled as oracles: deterministic functions from the
request payload to the response the service would give.  The pure control
flow of `main.rs` — the retry/backoff loops, the transient-error
classifier, the chunk merge with time offsets, the batched translation
with bisection recovery, and the tolerant JSON response parsing — is
embedded directly, function by function.
-/

namespace JP2TW

/-! ### Retry / backoff loop (transcribe_whisper_chunked lines 358-391,
translate_batch lines 506-545, translate_single_fallback lines 616-669).

All three loops in the source are verbatim copies of the same logic:
`attempt` starts at 0, each iteration makes one call; on a transient
error `attempt` is incremented, and if `attempt >= max_attempts` (5) the
last observed error is returned, otherwise the loop sleeps
`2u64.pow(attempt) * 1000` milliseconds and retries; a non-transient
error or a success ends the loop at once.  `call k` models the outcome of
the (k+1)-th HTTP call; `tr` is the transient classifier applied to the
error.  The returned list records the sleeps (in ms) that were performed,
in order. -/
/-- The backoff delay the source computes before a retry:
`2u64.pow(attempt) * 1000` milliseconds. -/
def backoffMs (attempt : Nat) : Nat := 2 ^ attempt * 1000


/-- One retry loop, fuel-indexed.  `attempt` mirrors the mutable counter;
`fuel` is an upper bound on the remaining iterations (the loop body
increases `attempt` strictly on every retried iteration and stops once
`attempt ≥ maxAttempts`, so `fuel = maxAttempts` at `attempt = 0` is
always enough; the fuel-exhausted branch returns the current error and is
unreachable in the configurations the source uses). -/
def retryFrom (call : Nat → Except E A) (tr : E → Bool) (maxAttempts : Nat) :
    Nat → Nat → Except E A × List Nat
  | attempt, fuel =>
    match call attempt with
    | .ok a => (.ok a, [])
    | .error e =>
      if tr e then
        if attempt + 1 ≥ maxAttempts then (.error e, [])
        else
          match fuel with
          | 0 => (.error e, [])
          | fuel' + 1 =>
            let r := retryFrom call tr maxAttempts (attempt + 1) fuel'
            (r.1, backoffMs (attempt + 1) :: r.2)
      else (.error e, [])


/-- The retry loop as the source runs it: `attempt = 0`,
`max_attempts = 5`. -/
def retryExec (call : Nat → Except E A) (tr : E → Bool) : Except E A × List Nat :=
  retryFrom call tr 5 0 5


/-! ### Transient-error classification (lines 367-372, 525-529, 649-653).

Each site formats an error message and checks it for the substrings
`" 500 "`, `" 502 "`, `" 503 "`, `"429"` via Rust's `str::contains`.
The message differs per site:
  * transcription: the `anyhow` error text
    `"OpenAI transcription error {status}: {body}"`;
  * bulk translation and single-line fallback:
    `format!("{} {}", status, text)`, i.e. `"{status} {body}"`.
`{status}` is `http::StatusCode`'s `Display`, which prints the numeric
code followed by the canonical reason phrase. -/
/-- Substring test over character lists (Rust `str::contains` with a
string pattern; the patterns involved are ASCII, so a character-level
scan agrees with Rust's byte-level scan). -/
def containsSub (pat : List Char) : List Char → Bool
  | [] => pat.isEmpty
  | c :: t => pat.isPrefixOf (c :: t) || containsSub pat t


/-- Rust `str::contains` on strings. -/
def strContains (hay pat : String) : Bool := containsSub pat.toList hay.toList


/-- `http::StatusCode`'s canonical reason phrase, for the statuses used in
this development (`Display` falls back to an unknown marker otherwise). -/
def canonicalReason (status : Nat) : String :=
  if status = 400 then "Bad Request"
  else if status = 401 then "Unauthorized"
  else if status = 429 then "Too Many Requests"
  else if status = 500 then "Internal Server Error"
  else if status = 502 then "Bad Gateway"
  else if status = 503 then "Service Unavailable"
  else if status = 504 then "Gateway Timeout"
  else "<unknown status code>"


/-- `http::StatusCode` `Display`: `"{code} {reason}"`. -/
def statusDisplay (status : Nat) : String :=
  toString status ++ " " ++ canonicalReason status


/-- The error message the transcription retry loop classifies
(line 366: `format!("{}", e)` of the `anyhow!` from line 282). -/
def transcriptionErrMsg (status : Nat) (body : String) : String :=
  "OpenAI transcription error " ++ statusDisplay status ++ ": " ++ body


/-- The error message the two translation retry loops classify
(lines 524 and 648: `format!("{} {}", status, text)`). -/
def translationErrMsg (status : Nat) (body : String) : String :=
  statusDisplay status ++ " " ++ body


/-- The classifier shared by all three retry loops (lines 368-372,
525-529, 649-653): transient iff the message contains `" 500 "`,
`" 502 "`, `" 503 "` or `"429"`. -/
def isTransientMsg (msg : String) : Bool :=
  strContains msg " 500 " || strContains msg " 502 " ||
    strContains msg " 503 " || strContains msg "429"


/-! ### Single-line fallback reply handling (translate_single_fallback,
lines 635-644).

On a 2xx response whose body parsed as JSON, the source reads
`raw["choices"][0]["message"]["content"].as_str().unwrap_or("")`, trims
whitespace, strips every leading and trailing `'"'`
(`trim_matches('"')`), and returns `Ok` unconditionally.  `content`
below is the extracted message content, `none` when the field is absent
or not a string. -/
/-- Rust `char::is_whitespace`, restricted to the whitespace characters
relevant here (Lean's `Char.isWhitespace` covers the ASCII cases the
pipeline produces). -/
def rustIsWs (c : Char) : Bool := c.isWhitespace


/-- Rust `str::trim` on a character list: drop whitespace from both
ends. -/
def rustTrimL (l : List Char) : List Char :=
  (((l.dropWhile rustIsWs).reverse.dropWhile rustIsWs)).reverse


/-- Rust `str::trim` on strings. -/
def rustTrim (s : String) : String := ⟨rustTrimL s.toList⟩


/-- Rust `str::trim_matches(c)`: strip every leading and trailing
occurrence of `c`. -/
def trimMatchesChar (c : Char) (s : String) : String :=
  ⟨((s.toList.dropWhile (· = c)).reverse.dropWhile (· = c)).reverse⟩


/-- What `translate_single_fallback` returns once an HTTP 2xx response
with a parsed JSON body is in hand (lines 636-644): the message content
(defaulting to the empty string), trimmed, with surrounding double
quotes stripped — always `Ok`. -/
def singleFallbackReply (content : Option String) : Except String String :=
  .ok (trimMatchesChar '"' (rustTrim (content.getD "")))


/-! ### Chunked transcription merge (transcribe_whisper_chunked,
lines 349-407).

Per chunk `i` the service reply is modelled as
`Option (List WhisperSegment)`: `none` when the `segments` field is
absent from the verbose-json reply (the `json.segments.ok_or_else` error
at lines 393-398), `some segs` otherwise — including `some []`.  On a
present list the source adds `offset = i * chunk_seconds` to every
segment's `start` and `end` and appends to the accumulator.  Timestamps
(`f64` in the source) are modelled as rationals. -/
/-- The segment record (`WhisperSegment`, lines 77-83); `end` is a Lean
keyword, so the field is named `stop`. -/
structure WhisperSegment where
  start : ℚ
  stop : ℚ
  text : String
  deriving Repr, DecidableEq


/-- Errors of the chunked transcription orchestrator. -/
inductive ChunkErr where
  /-- `"No segments returned by Whisper (verbose_json) for chunk {i}"`. -/
  | noSegments (chunk : Nat)
  deriving Repr, DecidableEq


/-- Offset every segment of chunk `i` by `i * chunkSeconds`
(lines 399-403). -/
def offsetChunk (chunkSeconds : ℚ) (i : Nat) (segs : List WhisperSegment) :
    List WhisperSegment :=
  segs.map fun s => { s with start := s.start + i * chunkSeconds,
                             stop := s.stop + i * chunkSeconds }


/-- The accumulation loop of `transcribe_whisper_chunked` (lines 349-405)
from chunk index `i` on: fail on the first chunk whose reply lacks the
`segments` field, otherwise append the offset-corrected segments. -/
def mergeChunksFrom (chunkSeconds : ℚ) :
    Nat → List (Option (List WhisperSegment)) →
    Except ChunkErr (List WhisperSegment)
  | _, [] => .ok []
  | i, none :: _ => .error (.noSegments i)
  | i, some segs :: rest =>
    match mergeChunksFrom chunkSeconds (i + 1) rest with
    | .ok tail => .ok (offsetChunk chunkSeconds i segs ++ tail)
    | .error e => .error e


/-- `transcribe_whisper_chunked`'s merge over all chunks. -/
def mergeChunks (chunkSeconds : ℚ)
    (chunks : List (Option (List WhisperSegment))) :
    Except ChunkErr (List WhisperSegment) :=
  mergeChunksFrom chunkSeconds 0 chunks


/-! ### Resilient batch translation (translate_lines_zh_tw lines 412-432,
translate_batch_strict lines 434-481).

`translate_batch` (the bulk HTTP call, lines 483-562) and
`translate_single_fallback` (lines 611-670) are modelled as an oracle:
deterministic functions from the submitted texts to the reply the
service would produce.  `translate_batch_strict` is embedded as the
source writes it: an explicit work stack of half-open `(start, end)`
ranges, an `out` array of optional slots, bulk attempt first, midpoint
split on failure, single-line fallback at length 1, and a final
collection pass that errors with `"Failed to translate line {i}"` on any
unfilled slot.  The embedding additionally counts the bulk and
single-line calls made (instrumentation only; the counters influence
nothing). -/
/-- Errors of the translation pipeline. -/
inductive TrErr where
  /-- `"OpenAI translation error {status}: {text}"` — a terminal service
  error or an exhausted retry loop. -/
  | service (status : Nat) (body : String)
  /-- `"Unexpected chat response structure"`. -/
  | badStructure
  /-- `"Translation JSON missing 'translations' array"`. -/
  | jsonMissing
  /-- `"Failed to translate line {i}"` from the defensive collection pass. -/
  | lineFailed (i : Nat)
  deriving Repr, DecidableEq


/-- The two translation collaborators, as deterministic oracles:
`bulk` models `translate_batch` on a slice of lines, `single` models
`translate_single_fallback` on one line. -/
structure Oracle where
  bulk : List String → Except TrErr (List String)
  single : String → Except TrErr String


/-- The sub-slice `&lines[s..e]` of the line array. -/
def slice (lines : List String) (s e : Nat) : List String :=
  (lines.drop s).take (e - s)


/-- `for (i, t) in v.into_iter().enumerate() { out[start + i] = Some(t) }`
(lines 453-455). -/
def writeSlots (out : List (Option String)) (st : Nat) :
    List String → List (Option String)
  | [] => out
  | t :: ts => writeSlots (out.set st (some t)) (st + 1) ts


/-- Measure of one stack range, used only for termination: 1 for an
empty range, `2*len - 1` otherwise. -/
def rangeMeasure (r : Nat × Nat) : Nat :=
  if r.2 - r.1 = 0 then 1 else 2 * (r.2 - r.1) - 1


/-- Measure of the whole work stack. -/
def stackMeasure (stack : List (Nat × Nat)) : Nat :=
  (stack.map rangeMeasure).sum


/-- The `while let Some((start, end)) = stack.pop()` loop of
`translate_batch_strict` (lines 446-469), instrumented with counters of
bulk calls (`b`) and single-line fallback calls (`sg`). -/
def tbsLoop (orc : Oracle) (lines : List String) :
    List (Nat × Nat) → List (Option String) → Nat → Nat →
    Except TrErr (List (Option String)) × Nat × Nat
  | [], out, b, sg => (.ok out, b, sg)
  | (st, en) :: stack, out, b, sg =>
    if h0 : en - st = 0 then tbsLoop orc lines stack out b sg
    else
      match orc.bulk (slice lines st en) with
      | .ok v =>
        if v.length = en - st then
          tbsLoop orc lines stack (writeSlots out st v) (b + 1) sg
        else if h1 : en - st = 1 then
          match orc.single (lines.getD st "") with
          | .ok t => tbsLoop orc lines stack (out.set st (some t)) (b + 1) (sg + 1)
          | .error e => (.error e, b + 1, sg + 1)
        else
          tbsLoop orc lines
            ((st, st + (en - st) / 2) :: (st + (en - st) / 2, en) :: stack)
            out (b + 1) sg
      | .error _ =>
        if h1 : en - st = 1 then
          match orc.single (lines.getD st "") with
          | .ok t => tbsLoop orc lines stack (out.set st (some t)) (b + 1) (sg + 1)
          | .error e => (.error e, b + 1, sg + 1)
        else
          tbsLoop orc lines
            ((st, st + (en - st) / 2) :: (st + (en - st) / 2, en) :: stack)
            out (b + 1) sg
  termination_by stack _ _ _ => stackMeasure stack
  decreasing_by
    all_goals simp only [stackMeasure, rangeMeasure, List.map_cons, List.sum_cons]
    all_goals split_ifs <;> omega


/-- The final collection pass (lines 472-479): the translated lines in
order, or `"Failed to translate line {i}"` at the first unfilled slot. -/
def collectSlots : List (Option String) → Nat → Except TrErr (List String)
  | [], _ => .ok []
  | none :: _, i => .error (.lineFailed i)
  | some t :: rest, i =>
    match collectSlots rest (i + 1) with
    | .ok r => .ok (t :: r)
    | .error e => .error e


/-- `translate_batch_strict` (lines 434-481) with call counters. -/
def tbsStats (orc : Oracle) (lines : List String) :
    Except TrErr (List String) × Nat × Nat :=
  match tbsLoop orc lines
      (if 0 < lines.length then [(0, lines.length)] else [])
      (List.replicate lines.length none) 0 0 with
  | (.ok out, b, sg) => (collectSlots out 0, b, sg)
  | (.error e, b, sg) => (.error e, b, sg)


/-- `translate_batch_strict` (lines 434-481). -/
def translate_batch_strict (orc : Oracle) (lines : List String) :
    Except TrErr (List String) :=
  (tbsStats orc lines).1


/-- The window loop of `translate_lines_zh_tw` (lines 422-430):
`end = min(idx + batch_size.max(1), lines.len())`, translate the window
strictly, extend the result, continue at `end`. -/
def tlGo (orc : Oracle) (lines : List String) (batch_size : Nat) :
    Nat → List String → Except TrErr (List String)
  | idx, result =>
    if h : idx < lines.length then
      match translate_batch_strict orc
          (slice lines idx (min (idx + max batch_size 1) lines.length)) with
      | .ok translated =>
        tlGo orc lines batch_size (min (idx + max batch_size 1) lines.length)
          (result ++ translated)
      | .error e => .error e
    else .ok result
  termination_by idx _ => lines.length - idx
  decreasing_by omega


/-- `translate_lines_zh_tw` (lines 412-432). -/
def translate_lines_zh_tw (orc : Oracle) (lines : List String)
    (batch_size : Nat) : Except TrErr (List String) :=
  if lines.isEmpty then .ok [] else tlGo orc lines batch_size 0 []


/-- Reference recursion for the bisection loop: process range
`[st, en)` to completion (bulk attempt, then either fill, fall back at
length 1, or recurse on the two halves left first).  The stack loop
`tbsLoop` is proved equivalent to it below; all range-level reasoning
happens here. -/
def solveRange (orc : Oracle) (lines : List String) :
    Nat → Nat → List (Option String) → Nat → Nat →
    Except TrErr (List (Option String)) × Nat × Nat
  | st, en, out, b, sg =>
    if h0 : en - st = 0 then (.ok out, b, sg)
    else
      match orc.bulk (slice lines st en) with
      | .ok v =>
        if v.length = en - st then (.ok (writeSlots out st v), b + 1, sg)
        else if h1 : en - st = 1 then
          match orc.single (lines.getD st "") with
          | .ok t => (.ok (out.set st (some t)), b + 1, sg + 1)
          | .error e => (.error e, b + 1, sg + 1)
        else
          match solveRange orc lines st (st + (en - st) / 2) out (b + 1) sg with
          | (.ok out', b', sg') =>
            solveRange orc lines (st + (en - st) / 2) en out' b' sg'
          | r => r
      | .error _ =>
        if h1 : en - st = 1 then
          match orc.single (lines.getD st "") with
          | .ok t => (.ok (out.set st (some t)), b + 1, sg + 1)
          | .error e => (.error e, b + 1, sg + 1)
        else
          match solveRange orc lines st (st + (en - st) / 2) out (b + 1) sg with
          | (.ok out', b', sg') =>
            solveRange orc lines (st + (en - st) / 2) en out' b' sg'
          | r => r
  termination_by st en _ _ _ => en - st
  decreasing_by all_goals omega


/-! ### The merged transcription list, concretely. -/
/-- The list the merge produces when every chunk reply carries a
(possibly empty) segment list: each chunk offset by its index, flattened
in chunk order. -/
def flattenIdxFrom (c : ℚ) : Nat → List (List WhisperSegment) → List WhisperSegment
  | _, [] => []
  | i, l :: rest => offsetChunk c i l ++ flattenIdxFrom c (i + 1) rest


/-! ### Concrete oracles used as witnesses and counterexamples. -/
/-- The identity-translation service: every bulk reply echoes its input
(`ja` text unchanged), every fallback reply echoes its line. -/
def echoOracle : Oracle where
  bulk := fun xs => .ok xs
  single := fun x => .ok x


/-- Worst-case service: every bulk reply has a mismatched length (an
empty array), every single-line fallback succeeds with the line
unchanged. -/
def worstOracle : Oracle where
  bulk := fun _ => .ok []
  single := fun x => .ok x


/-- Fully failing service: every bulk reply has a mismatched length and
every single-line fallback fails with a terminal 400 error. -/
def failingOracle : Oracle where
  bulk := fun _ => .ok []
  single := fun _ => .error (.service 400 "bad request")


/-! ### Tolerant response parsing (try_parse_translations_json lines
564-587, extract_first_json_object lines 589-609, and their use in
translate_batch lines 551-561).

`serde_json::from_str::<Value>` is an external collaborator; it is
modelled by `jsonParse`: a strict JSON parser over the characters (the
grammar serde accepts: a single value, surrounded by optional
whitespace, with nothing else trailing).  Numbers are kept as their
lexeme — the pipeline only ever reads strings out of the parsed value.
Brace characters are written `\x7b` and `\x7d` throughout. -/
/-- JSON values, as parsed. -/
inductive Json where
  | null
  | bool (b : Bool)
  | num (lexeme : String)
  | str (s : String)
  | arr (elems : List Json)
  | obj (members : List (String × Json))


/-- JSON insignificant whitespace (RFC 8259, what serde skips). -/
def jsonWs (c : Char) : Bool := c = ' ' || c = '\t' || c = '\n' || c = '\r'


/-- Skip insignificant whitespace. -/
def skipWs (l : List Char) : List Char := l.dropWhile jsonWs


/-- Hexadecimal digit value. -/
def hexVal (c : Char) : Option Nat :=
  if c.isDigit then some (c.toNat - '0'.toNat)
  else if 'a' ≤ c ∧ c ≤ 'f' then some (c.toNat - 'a'.toNat + 10)
  else if 'A' ≤ c ∧ c ≤ 'F' then some (c.toNat - 'A'.toNat + 10)
  else none


/-- Four hex digits of a `\\u` escape. -/
def parseHex4 : List Char → Option (Nat × List Char)
  | c1 :: c2 :: c3 :: c4 :: rest =>
    match hexVal c1, hexVal c2, hexVal c3, hexVal c4 with
    | some a, some b, some c, some d =>
      some ((((a * 16 + b) * 16 + c) * 16 + d : Nat), rest)
    | _, _, _, _ => none
  | _ => none


/-- Body of a JSON string, positioned after the opening quote: unescapes
the standard escapes, combines surrogate pairs, rejects lone surrogates
and raw control characters, and stops at the closing quote. -/
def parseStringBody : Nat → List Char → Option (List Char × List Char)
  | 0, _ => none
  | _ + 1, [] => none
  | fuel + 1, c :: rest =>
    if c = '"' then some ([], rest)
    else if c = '\\' then
      match rest with
      | [] => none
      | e :: rest2 =>
        let esc : Option Char :=
          if e = '"' then some '"'
          else if e = '\\' then some '\\'
          else if e = '/' then some '/'
          else if e = 'b' then some '\x08'
          else if e = 'f' then some '\x0c'
          else if e = 'n' then some '\n'
          else if e = 'r' then some '\r'
          else if e = 't' then some '\t'
          else none
        match esc with
        | some ch =>
          match parseStringBody fuel rest2 with
          | some (s, rest3) => some (ch :: s, rest3)
          | none => none
        | none =>
          if e = 'u' then
            match parseHex4 rest2 with
            | some (n, rest3) =>
              if n < 0xD800 ∨ 0xDFFF < n then
                match parseStringBody fuel rest3 with
                | some (s, rest4) => some (Char.ofNat n :: s, rest4)
                | none => none
              else if n < 0xDC00 then
                match rest3 with
                | '\\' :: 'u' :: rest4 =>
                  match parseHex4 rest4 with
                  | some (n2, rest5) =>
                    if 0xDC00 ≤ n2 ∧ n2 ≤ 0xDFFF then
                      match parseStringBody fuel rest5 with
                      | some (s, rest6) =>
                        some (Char.ofNat (0x10000 + (n - 0xD800) * 0x400 +
                          (n2 - 0xDC00)) :: s, rest6)
                      | none => none
                    else none
                  | none => none
                | _ => none
              else none
            | none => none
          else none
    else if c.toNat < 0x20 then none
    else
      match parseStringBody fuel rest with
      | some (s, rest2) => some (c :: s, rest2)
      | none => none


/-- The digit prefix of the input and what follows it. -/
def digitSpan (l : List Char) : List Char × List Char :=
  (l.takeWhile Char.isDigit, l.dropWhile Char.isDigit)


/-- Optional exponent part; `lex` is the lexeme collected so far. -/
def parseExponentPart (lex : List Char) : List Char → Option (List Char × List Char)
  | [] => some (lex, [])
  | c :: r1 =>
    if c = 'e' ∨ c = 'E' then
      let sr : List Char × List Char :=
        match r1 with
        | '+' :: t => (['+'], t)
        | '-' :: t => (['-'], t)
        | _ => ([], r1)
      match digitSpan sr.2 with
      | ([], _) => none
      | (ep, r3) => some (lex ++ c :: sr.1 ++ ep, r3)
    else some (lex, c :: r1)


/-- A JSON number (serde grammar: optional minus, integer part without
leading zeros, optional fraction, optional exponent); returns the lexeme
and the remaining input. -/
def parseNumber (l : List Char) : Option (List Char × List Char) :=
  let nl : List Char × List Char :=
    match l with
    | '-' :: t => (['-'], t)
    | _ => ([], l)
  match digitSpan nl.2 with
  | ([], _) => none
  | (ip, r1) =>
    if 1 < ip.length ∧ ip.headD '0' = '0' then none
    else
      match r1 with
      | '.' :: r2 =>
        match digitSpan r2 with
        | ([], _) => none
        | (fp, r3) => parseExponentPart (nl.1 ++ ip ++ '.' :: fp) r3
      | _ => parseExponentPart (nl.1 ++ ip) r1


mutual

/-- One JSON value, preceded by optional whitespace. -/
def parseValue : Nat → List Char → Option (Json × List Char)
  | 0, _ => none
  | fuel + 1, input =>
    match skipWs input with
    | [] => none
    | c :: rest =>
      if c = '\x7b' then
        match skipWs rest with
        | '\x7d' :: rest2 => some (.obj [], rest2)
        | _ => parseMembers fuel rest []
      else if c = '[' then
        match skipWs rest with
        | ']' :: rest2 => some (.arr [], rest2)
        | _ => parseElems fuel rest []
      else if c = '"' then
        match parseStringBody (rest.length + 1) rest with
        | some (s, rest2) => some (.str ⟨s⟩, rest2)
        | none => none
      else if c = 't' then
        if rest.take 3 = ['r', 'u', 'e'] then some (.bool true, rest.drop 3)
        else none
      else if c = 'f' then
        if rest.take 4 = ['a', 'l', 's', 'e'] then some (.bool false, rest.drop 4)
        else none
      else if c = 'n' then
        if rest.take 3 = ['u', 'l', 'l'] then some (.null, rest.drop 3)
        else none
      else if c = '-' ∨ c.isDigit then
        match parseNumber (c :: rest) with
        | some (lex, rest2) => some (.num ⟨lex⟩, rest2)
        | none => none
      else none

/-- Object members, positioned after `\x7b` or after a comma. -/
def parseMembers : Nat → List Char → List (String × Json) →
    Option (Json × List Char)
  | 0, _, _ => none
  | fuel + 1, input, acc =>
    match skipWs input with
    | '"' :: rest =>
      match parseStringBody (rest.length + 1) rest with
      | some (k, rest2) =>
        match skipWs rest2 with
        | ':' :: rest3 =>
          match parseValue fuel rest3 with
          | some (v, rest4) =>
            match skipWs rest4 with
            | ',' :: rest5 => parseMembers fuel rest5 (acc ++ [(⟨k⟩, v)])
            | '\x7d' :: rest5 => some (.obj (acc ++ [(⟨k⟩, v)]), rest5)
            | _ => none
          | none => none
        | _ => none
      | none => none
    | _ => none

/-- Array elements, positioned after `[` or after a comma. -/
def parseElems : Nat → List Char → List Json → Option (Json × List Char)
  | 0, _, _ => none
  | fuel + 1, input, acc =>
    match parseValue fuel input with
    | some (v, rest) =>
      match skipWs rest with
      | ',' :: rest2 => parseElems fuel rest2 (acc ++ [v])
      | ']' :: rest2 => some (.arr (acc ++ [v]), rest2)
      | _ => none
    | none => none

end

/-- `serde_json::from_str::<Value>`: one value, optionally surrounded by
whitespace; anything else trailing is an error.  The fuel is ample: every
two recursion steps consume at least one character. -/
def jsonParse (s : String) : Option Json :=
  match parseValue (2 * s.length + 4) s.toList with
  | some (v, rest) => if skipWs rest = [] then some v else none
  | none => none


/-- `Value::index` on an object followed by the lookup the source does:
the last member with the given key wins (serde's map is built with
`insert`, so a duplicate key keeps the last value). -/
def getField : List (String × Json) → String → Option Json
  | [], _ => none
  | (k0, v0) :: rest, k =>
    match getField rest k with
    | some v => some v
    | none => if k0 = k then some v0 else none


/-- `Value::as_str`. -/
def asStr : Json → Option String
  | .str s => some s
  | _ => none


/-- `v["translations"].as_array().map(...)` (lines 580-584): the
`translations` array with every element coerced via
`as_str().unwrap_or("")`. -/
def translationsOf : Json → Option (List String)
  | .obj members =>
    match getField members "translations" with
    | some (.arr elems) => some (elems.map (fun x => (asStr x).getD ""))
    | _ => none
  | _ => none


/-- Direct parse attempt: parse the raw text and read the field. -/
def parseDirect (s : String) : Option (List String) :=
  match jsonParse s with
  | some v => translationsOf v
  | none => none


/-- Rust `str::trim_start_matches(pat)`: repeatedly remove `pat` from the
front (fuel-indexed; each successful strip removes at least one
character, so `l.length + 1` fuel always suffices). -/
def trimStartMatchesAux (pat : List Char) : Nat → List Char → List Char
  | 0, l => l
  | fuel + 1, l =>
    if pat ≠ [] ∧ pat.isPrefixOf l then
      trimStartMatchesAux pat fuel (l.drop pat.length)
    else l


/-- Rust `str::trim_start_matches(pat)`. -/
def trimStartMatches (pat l : List Char) : List Char :=
  trimStartMatchesAux pat (l.length + 1) l


/-- Rust `str::trim_end_matches(pat)`: repeatedly remove `pat` from the
end. -/
def trimEndMatches (pat l : List Char) : List Char :=
  (trimStartMatches pat.reverse l.reverse).reverse


/-- `trimmed.starts_with("```")`. -/
def startsWith3Backticks (l : List Char) : Bool :=
  ['`', '`', '`'].isPrefixOf l


/-- The fence-stripping sequence of `try_parse_translations_json`
(lines 566-575): the source's exact `trim_start_matches` /
`trim_end_matches` / `trim` chain. -/
def fenceStrip (trimmed : List Char) : List Char :=
  rustTrimL (trimEndMatches "```".toList
    (trimStartMatches "```".toList
      (trimStartMatches "```) ".toList
        (trimStartMatches "```JSON".toList
          (trimStartMatches "```json".toList trimmed)))))


/-- `try_parse_translations_json` (lines 564-587): trim, strip an
optional fenced code block, parse, read the array. -/
def try_parse_translations_json (s : String) : Option (List String) :=
  if startsWith3Backticks (rustTrimL s.toList) then
    parseDirect ⟨fenceStrip (rustTrimL s.toList)⟩
  else parseDirect ⟨rustTrimL s.toList⟩


/-- The byte scan of `extract_first_json_object` (lines 589-609):
`depth`-counting over raw characters; `acc = some a` plays the role of
`start = Some(st)` with `a` the slice `s[st..i]` collected so far
(braces are ASCII, so the byte scan and this character scan agree). -/
def extract_first_json_object_aux : List Char → Int → Option (List Char) →
    Option (List Char)
  | [], _, _ => none
  | c :: rest, depth, acc =>
    if c = '\x7b' then
      extract_first_json_object_aux rest (depth + 1)
        (if depth = 0 then some [c] else acc.map (fun a => a ++ [c]))
    else if c = '\x7d' then
      match acc.map (fun a => a ++ [c]) with
      | some a =>
        if depth - 1 = 0 then some a
        else extract_first_json_object_aux rest (depth - 1) (some a)
      | none => extract_first_json_object_aux rest (depth - 1) none
    else extract_first_json_object_aux rest depth (acc.map (fun a => a ++ [c]))


/-- `extract_first_json_object` (lines 589-609). -/
def extract_first_json_object (s : String) : Option String :=
  (extract_first_json_object_aux s.toList 0 none).map (fun l => ⟨l⟩)


/-- The tolerant sequence `translate_batch` runs on the reply content
(lines 551-561): direct tolerant parse, then the first balanced brace
block re-parsed. -/
def parseTranslationsContent (content : String) : Option (List String) :=
  match try_parse_translations_json content with
  | some v => some v
  | none =>
    match extract_first_json_object content with
    | some sub => try_parse_translations_json sub
    | none => none


/-! ### Lemmas for the tolerant-parse equivalence. -/
/-- The characters on which `parseValue` can begin a value. -/
def jsonStart (c : Char) : Bool :=
  c = '\x7b' || c = '[' || c = '"' || c = 't' || c = 'f' || c = 'n' ||
    c = '-' || c.isDigit


/-! ## Theorems -/

/-! ### Helper lemmas about `writeSlots` and `slice`. -/
theorem writeSlots_length (v : List String) :
    ∀ (out : List (Option String)) (st : Nat),
      (writeSlots out st v).length = out.length := by
  induction v with
  | nil => intro out st; rfl
  | cons t ts ih => intro out st; rw [writeSlots, ih]; simp


theorem writeSlots_getElem?_low (v : List String) :
    ∀ (out : List (Option String)) (st j : Nat), j < st →
      (writeSlots out st v)[j]? = out[j]? := by
  induction v with
  | nil => intro out st j _; rfl
  | cons t ts ih =>
    intro out st j hj
    rw [writeSlots, ih _ _ _ (by omega), List.getElem?_set_ne (by omega)]


theorem writeSlots_getElem?_high (v : List String) :
    ∀ (out : List (Option String)) (st j : Nat), st + v.length ≤ j →
      (writeSlots out st v)[j]? = out[j]? := by
  induction v with
  | nil => intro out st j _; rfl
  | cons t ts ih =>
    intro out st j hj
    simp only [List.length_cons] at hj
    rw [writeSlots, ih _ _ _ (by omega), List.getElem?_set_ne (by omega)]


theorem writeSlots_getElem?_in (v : List String) :
    ∀ (out : List (Option String)) (st j : Nat),
      st ≤ j → j < st + v.length → st + v.length ≤ out.length →
      (writeSlots out st v)[j]? = (v[j - st]?).map some := by
  induction v with
  | nil => intro out st j h1 h2 _; simp at h1 h2; omega
  | cons t ts ih =>
    intro out st j h1 h2 h3
    simp only [List.length_cons] at h2 h3
    rw [writeSlots]
    rcases Nat.eq_or_lt_of_le h1 with rfl | hlt
    · rw [writeSlots_getElem?_low ts _ _ _ (by omega),
        List.getElem?_set_self (by omega)]
      simp
    · obtain ⟨m, rfl⟩ : ∃ m, j = st + 1 + m := ⟨j - (st + 1), by omega⟩
      rw [ih _ _ _ (by omega) (by omega) (by simp; omega)]
      have : st + 1 + m - (st + 1) = m := by omega
      rw [this]
      have : st + 1 + m - st = m + 1 := by omega
      rw [this, List.getElem?_cons_succ]


theorem writeSlots_eq_map_some (v : List String) (out : List (Option String))
    (h : v.length = out.length) : writeSlots out 0 v = v.map some := by
  apply List.ext_getElem?
  intro j
  by_cases hj : j < v.length
  · rw [writeSlots_getElem?_in v out 0 j (by omega) (by omega) (by omega)]
    rw [List.getElem?_map]
    simp
  · rw [writeSlots_getElem?_high v out 0 j (by omega)]
    rw [List.getElem?_eq_none (by omega), List.getElem?_eq_none (by simpa using by omega)]


theorem slice_length (lines : List String) (s e : Nat)
    (h1 : s ≤ e) (h2 : e ≤ lines.length) : (slice lines s e).length = e - s := by
  simp [slice]; omega


theorem slice_all (lines : List String) : slice lines 0 lines.length = lines := by
  simp [slice]


theorem slice_split (lines : List String) (s m e : Nat)
    (h1 : s ≤ m) (h2 : m ≤ e) :
    slice lines s e = slice lines s m ++ slice lines m e := by
  unfold slice
  have he : e - s = (m - s) + (e - m) := by omega
  rw [he, List.take_add, List.drop_drop]
  have hm : s + (m - s) = m := by omega
  rw [hm]


theorem slice_singleton (lines : List String) (s : Nat) (h : s < lines.length) :
    slice lines s (s + 1) = [lines.getD s ""] := by
  unfold slice
  have h1 : s + 1 - s = 1 := by omega
  rw [h1, List.drop_eq_getElem_cons h, List.take_succ_cons, List.take_zero]
  rw [List.getD_eq_getElem?_getD, List.getElem?_eq_getElem h]
  rfl


theorem slice_subset (lines : List String) (s e : Nat) :
    ∀ x, x ∈ slice lines s e → x ∈ lines := by
  intro x hx
  have h1 : (slice lines s e).Sublist (lines.drop s) := List.take_sublist _ _
  have h2 : (lines.drop s).Sublist lines := List.drop_sublist _ _
  exact (h1.trans h2).mem hx


theorem getD_mem (lines : List String) (s : Nat) (h : s < lines.length) :
    lines.getD s "" ∈ lines := by
  rw [List.getD_eq_getElem?_getD, List.getElem?_eq_getElem h]
  exact List.getElem_mem h


/-! ### The stack loop agrees with the reference recursion. -/
theorem tbsLoop_eq_solveRange (orc : Oracle) (lines : List String) :
    ∀ (d st en : Nat), en - st ≤ d → ∀ stack out b sg,
      tbsLoop orc lines ((st, en) :: stack) out b sg =
        match solveRange orc lines st en out b sg with
        | (.ok out', b', sg') => tbsLoop orc lines stack out' b' sg'
        | (.error e, b', sg') => (.error e, b', sg') := by
  intro d
  induction d with
  | zero =>
    intro st en hd stack out b sg
    have h0 : en - st = 0 := by omega
    rw [tbsLoop, solveRange, dif_pos h0, dif_pos h0]
  | succ d ih =>
    intro st en hd stack out b sg
    by_cases h0 : en - st = 0
    · rw [tbsLoop, solveRange, dif_pos h0, dif_pos h0]
    · rw [tbsLoop, solveRange, dif_neg h0, dif_neg h0]
      cases hb : orc.bulk (slice lines st en) with
      | error e =>
        dsimp only
        by_cases h1 : en - st = 1
        · rw [dif_pos h1, dif_pos h1]
          cases hs : orc.single (lines.getD st "") <;> dsimp only
        · rw [dif_neg h1, dif_neg h1]
          rw [ih st (st + (en - st) / 2) (by omega)
            ((st + (en - st) / 2, en) :: stack) out (b + 1) sg]
          rcases hrec : solveRange orc lines st (st + (en - st) / 2) out (b + 1) sg
            with ⟨r, b2, sg2⟩
          cases r with
          | ok out2 =>
            dsimp only
            rw [ih (st + (en - st) / 2) en (by omega) stack out2 b2 sg2]
          | error e2 => dsimp only
      | ok v =>
        dsimp only
        by_cases hv : v.length = en - st
        · rw [if_pos hv, if_pos hv]
        · rw [if_neg hv, if_neg hv]
          by_cases h1 : en - st = 1
          · rw [dif_pos h1, dif_pos h1]
            cases hs : orc.single (lines.getD st "") <;> dsimp only
          · rw [dif_neg h1, dif_neg h1]
            rw [ih st (st + (en - st) / 2) (by omega)
              ((st + (en - st) / 2, en) :: stack) out (b + 1) sg]
            rcases hrec : solveRange orc lines st (st + (en - st) / 2) out (b + 1) sg
              with ⟨r, b2, sg2⟩
            cases r with
            | ok out2 =>
              dsimp only
              rw [ih (st + (en - st) / 2) en (by omega) stack out2 b2 sg2]
            | error e2 => dsimp only


/-! ### Facts about `collectSlots`. -/
theorem collectSlots_map_some (l : List String) :
    ∀ i, collectSlots (l.map some) i = .ok l := by
  induction l with
  | nil => intro i; rfl
  | cons t ts ih => intro i; rw [List.map_cons, collectSlots, ih]


theorem collectSlots_length (l : List (Option String)) :
    ∀ i r, collectSlots l i = .ok r → r.length = l.length := by
  induction l with
  | nil => intro i r h; cases h; rfl
  | cons o rest ih =>
    intro i r h
    cases o with
    | none => exact absurd h (by rw [collectSlots]; intro hc; cases hc)
    | some t =>
      rw [collectSlots] at h
      cases hrec : collectSlots rest (i + 1) with
      | ok r' =>
        rw [hrec] at h
        cases h
        simp [ih _ _ hrec]
      | error e => rw [hrec] at h; cases h


theorem collectSlots_all_some (l : List (Option String)) :
    ∀ i, (∀ j, j < l.length → ∃ t, l[j]? = some (some t)) →
      ∃ r, collectSlots l i = .ok r := by
  induction l with
  | nil => intro i _; exact ⟨[], rfl⟩
  | cons o rest ih =>
    intro i hall
    obtain ⟨t, ht⟩ := hall 0 (by simp)
    simp only [List.getElem?_cons_zero] at ht
    cases ht
    obtain ⟨r, hr⟩ := ih (i + 1) (by
      intro j hj
      have := hall (j + 1) (by simpa using Nat.succ_lt_succ hj)
      simpa using this)
    exact ⟨t :: r, by rw [collectSlots, hr]⟩


/-! ### Structural facts about `solveRange`: slot lengths, the frame
outside the range, every in-range slot filled on success, and the source
of a propagated error (always a single-line fallback failure). -/
theorem solveRange_spec (orc : Oracle) (lines : List String) :
    ∀ (d st en : Nat), en - st ≤ d → en ≤ lines.length →
    ∀ out b sg, en ≤ out.length →
      (∀ out' b' sg',
        solveRange orc lines st en out b sg = (.ok out', b', sg') →
        out'.length = out.length ∧
        (∀ j, j < st ∨ en ≤ j → out'[j]? = out[j]?) ∧
        (∀ j, st ≤ j → j < en → ∃ t, out'[j]? = some (some t))) ∧
      (∀ e b' sg',
        solveRange orc lines st en out b sg = (.error e, b', sg') →
        ∃ x, x ∈ lines ∧ orc.single x = .error e) := by
  intro d
  induction d with
  | zero =>
    intro st en hd hlen out b sg hout
    have h0 : en - st = 0 := by omega
    rw [solveRange, dif_pos h0]
    constructor
    · intro out' b' sg' heq
      obtain ⟨rfl, rfl, rfl⟩ : out = out' ∧ b = b' ∧ sg = sg' := by
        simpa [Prod.ext_iff] using heq
      exact ⟨rfl, fun j _ => rfl, fun j h1 h2 => by omega⟩
    · intro e b' sg' heq; simp [Prod.ext_iff] at heq
  | succ d ih =>
    intro st en hd hlen out b sg hout
    by_cases h0 : en - st = 0
    · rw [solveRange, dif_pos h0]
      constructor
      · intro out' b' sg' heq
        obtain ⟨rfl, rfl, rfl⟩ : out = out' ∧ b = b' ∧ sg = sg' := by
          simpa [Prod.ext_iff] using heq
        exact ⟨rfl, fun j _ => rfl, fun j h1 h2 => by omega⟩
      · intro e b' sg' heq; simp [Prod.ext_iff] at heq
    · rw [solveRange, dif_neg h0]
      -- helper facts for all remaining branches
      have hstlt : st < en := by omega
      cases hb : orc.bulk (slice lines st en) with
      | ok v =>
        dsimp only
        by_cases hv : v.length = en - st
        · rw [if_pos hv]
          constructor
          · intro out' b' sg' heq
            obtain ⟨rfl, rfl, rfl⟩ :
                writeSlots out st v = out' ∧ b + 1 = b' ∧ sg = sg' := by
              simpa [Prod.ext_iff] using heq
            refine ⟨writeSlots_length v out st, ?_, ?_⟩
            · intro j hj
              rcases hj with hj | hj
              · exact writeSlots_getElem?_low v out st j hj
              · exact writeSlots_getElem?_high v out st j (by omega)
            · intro j hj1 hj2
              rw [writeSlots_getElem?_in v out st j hj1 (by omega) (by omega)]
              have hjv : j - st < v.length := by omega
              exact ⟨v[j - st], by rw [List.getElem?_eq_getElem hjv]; rfl⟩
          · intro e b' sg' heq; simp [Prod.ext_iff] at heq
        · rw [if_neg hv]
          by_cases h1 : en - st = 1
          · rw [dif_pos h1]
            cases hs : orc.single (lines.getD st "") with
            | ok t =>
              dsimp only
              constructor
              · intro out' b' sg' heq
                obtain ⟨rfl, rfl, rfl⟩ :
                    out.set st (some t) = out' ∧ b + 1 = b' ∧ sg + 1 = sg' := by
                  simpa [Prod.ext_iff] using heq
                refine ⟨by simp, ?_, ?_⟩
                · intro j hj
                  exact List.getElem?_set_ne (by omega)
                · intro j hj1 hj2
                  have hj : j = st := by omega
                  subst hj
                  exact ⟨t, by rw [List.getElem?_set_self (by omega)]⟩
              · intro e b' sg' heq; simp [Prod.ext_iff] at heq
            | error e0 =>
              dsimp only
              constructor
              · intro out' b' sg' heq; simp [Prod.ext_iff] at heq
              · intro e b' sg' heq
                obtain ⟨rfl, rfl, rfl⟩ : e0 = e ∧ b + 1 = b' ∧ sg + 1 = sg' := by
                  simpa [Prod.ext_iff] using heq
                exact ⟨lines.getD st "", getD_mem lines st (by omega), hs⟩
          · rw [dif_neg h1]
            have hmid1 : st + (en - st) / 2 - st ≤ d := by omega
            have hmid2 : en - (st + (en - st) / 2) ≤ d := by omega
            have hmlen : st + (en - st) / 2 ≤ lines.length := by omega
            rcases hrec1 : solveRange orc lines st (st + (en - st) / 2) out (b + 1) sg
              with ⟨r1, b1, sg1⟩
            cases r1 with
            | ok out1 =>
              dsimp only
              have H1 := (ih st (st + (en - st) / 2) hmid1 hmlen out (b + 1) sg
                (by omega)).1 out1 b1 sg1 hrec1
              obtain ⟨hl1, hfr1, hfill1⟩ := H1
              have H2 := ih (st + (en - st) / 2) en hmid2 hlen out1 b1 sg1
                (by omega)
              constructor
              · intro out' b' sg' heq
                obtain ⟨hl2, hfr2, hfill2⟩ := H2.1 out' b' sg' heq
                refine ⟨hl2.trans hl1, ?_, ?_⟩
                · intro j hj
                  rw [hfr2 j (by omega), hfr1 j (by omega)]
                · intro j hj1 hj2
                  by_cases hjm : j < st + (en - st) / 2
                  · rw [hfr2 j (by omega)]
                    exact hfill1 j hj1 hjm
                  · exact hfill2 j (by omega) hj2
              · intro e b' sg' heq
                exact H2.2 e b' sg' heq
            | error e1 =>
              dsimp only
              constructor
              · intro out' b' sg' heq; simp [Prod.ext_iff] at heq
              · intro e b' sg' heq
                obtain ⟨he, hb2, hsg2⟩ : e1 = e ∧ b1 = b' ∧ sg1 = sg' := by
                  simpa [Prod.ext_iff] using heq
                exact he ▸ (ih st (st + (en - st) / 2) hmid1 hmlen out (b + 1) sg
                  (by omega)).2 e1 b1 sg1 hrec1
      | error e0 =>
        dsimp only
        by_cases h1 : en - st = 1
        · rw [dif_pos h1]
          cases hs : orc.single (lines.getD st "") with
          | ok t =>
            dsimp only
            constructor
            · intro out' b' sg' heq
              obtain ⟨rfl, rfl, rfl⟩ :
                  out.set st (some t) = out' ∧ b + 1 = b' ∧ sg + 1 = sg' := by
                simpa [Prod.ext_iff] using heq
              refine ⟨by simp, ?_, ?_⟩
              · intro j hj
                exact List.getElem?_set_ne (by omega)
              · intro j hj1 hj2
                have hj : j = st := by omega
                subst hj
                exact ⟨t, by rw [List.getElem?_set_self (by omega)]⟩
            · intro e b' sg' heq; simp [Prod.ext_iff] at heq
          | error e1 =>
            dsimp only
            constructor
            · intro out' b' sg' heq; simp [Prod.ext_iff] at heq
            · intro e b' sg' heq
              obtain ⟨rfl, rfl, rfl⟩ : e1 = e ∧ b + 1 = b' ∧ sg + 1 = sg' := by
                simpa [Prod.ext_iff] using heq
              exact ⟨lines.getD st "", getD_mem lines st (by omega), hs⟩
        · rw [dif_neg h1]
          have hmid1 : st + (en - st) / 2 - st ≤ d := by omega
          have hmid2 : en - (st + (en - st) / 2) ≤ d := by omega
          have hmlen : st + (en - st) / 2 ≤ lines.length := by omega
          rcases hrec1 : solveRange orc lines st (st + (en - st) / 2) out (b + 1) sg
            with ⟨r1, b1, sg1⟩
          cases r1 with
          | ok out1 =>
            dsimp only
            have H1 := (ih st (st + (en - st) / 2) hmid1 hmlen out (b + 1) sg
              (by omega)).1 out1 b1 sg1 hrec1
            obtain ⟨hl1, hfr1, hfill1⟩ := H1
            have H2 := ih (st + (en - st) / 2) en hmid2 hlen out1 b1 sg1
              (by omega)
            constructor
            · intro out' b' sg' heq
              obtain ⟨hl2, hfr2, hfill2⟩ := H2.1 out' b' sg' heq
              refine ⟨hl2.trans hl1, ?_, ?_⟩
              · intro j hj
                rw [hfr2 j (by omega), hfr1 j (by omega)]
              · intro j hj1 hj2
                by_cases hjm : j < st + (en - st) / 2
                · rw [hfr2 j (by omega)]
                  exact hfill1 j hj1 hjm
                · exact hfill2 j (by omega) hj2
            · intro e b' sg' heq
              exact H2.2 e b' sg' heq
          | error e1 =>
            dsimp only
            constructor
            · intro out' b' sg' heq; simp [Prod.ext_iff] at heq
            · intro e b' sg' heq
              obtain ⟨he, hb2, hsg2⟩ : e1 = e ∧ b1 = b' ∧ sg1 = sg' := by
                simpa [Prod.ext_iff] using heq
              exact he ▸ (ih st (st + (en - st) / 2) hmid1 hmlen out (b + 1) sg
                (by omega)).2 e1 b1 sg1 hrec1


/-! ### `writeSlots` composition and the consistent-oracle description of
a successful bisection run. -/
theorem writeSlots_append (A B : List String) :
    ∀ (out : List (Option String)) (st : Nat),
      writeSlots out st (A ++ B) = writeSlots (writeSlots out st A) (st + A.length) B := by
  induction A with
  | nil => intro out st; simp [writeSlots]
  | cons t ts ih =>
    intro out st
    rw [List.cons_append, writeSlots, writeSlots, ih]
    have : st + (ts.length + 1) = st + 1 + ts.length := by omega
    simp [List.length_cons, this]


/-- With a consistent oracle — every accepted bulk reply is the
element-wise translation `f` of what was submitted, and so is every
successful single-line fallback — a successful `solveRange` on `[st, en)`
writes exactly `f` of the corresponding lines. -/
theorem solveRange_consistent (orc : Oracle) (lines : List String) (f : String → String)
    (Hbulk : ∀ xs v, orc.bulk xs = .ok v → v.length = xs.length → v = xs.map f)
    (Hsingle : ∀ x t, orc.single x = .ok t → t = f x) :
    ∀ (d st en : Nat), en - st ≤ d → en ≤ lines.length →
    ∀ out b sg out' b' sg',
      solveRange orc lines st en out b sg = (.ok out', b', sg') →
      out' = writeSlots out st ((slice lines st en).map f) := by
  intro d
  induction d with
  | zero =>
    intro st en hd hlen out b sg out' b' sg' heq
    have h0 : en - st = 0 := by omega
    rw [solveRange, dif_pos h0] at heq
    obtain ⟨rfl, rfl, rfl⟩ : out = out' ∧ b = b' ∧ sg = sg' := by
      simpa [Prod.ext_iff] using heq
    simp [slice, h0, writeSlots]
  | succ d ih =>
    intro st en hd hlen out b sg out' b' sg' heq
    by_cases h0 : en - st = 0
    · rw [solveRange, dif_pos h0] at heq
      obtain ⟨rfl, rfl, rfl⟩ : out = out' ∧ b = b' ∧ sg = sg' := by
        simpa [Prod.ext_iff] using heq
      simp [slice, h0, writeSlots]
    · rw [solveRange, dif_neg h0] at heq
      have hslen : (slice lines st en).length = en - st :=
        slice_length lines st en (by omega) hlen
      cases hb : orc.bulk (slice lines st en) with
      | ok v =>
        rw [hb] at heq; dsimp only at heq
        by_cases hv : v.length = en - st
        · rw [if_pos hv] at heq
          obtain ⟨rfl, rfl, rfl⟩ :
              writeSlots out st v = out' ∧ b + 1 = b' ∧ sg = sg' := by
            simpa [Prod.ext_iff] using heq
          rw [Hbulk _ v hb (by omega)]
        · rw [if_neg hv] at heq
          by_cases h1 : en - st = 1
          · rw [dif_pos h1] at heq
            cases hs : orc.single (lines.getD st "") with
            | ok t =>
              rw [hs] at heq; dsimp only at heq
              obtain ⟨rfl, rfl, rfl⟩ :
                  out.set st (some t) = out' ∧ b + 1 = b' ∧ sg + 1 = sg' := by
                simpa [Prod.ext_iff] using heq
              have hen : en = st + 1 := by omega
              subst hen
              rw [slice_singleton lines st (by omega), Hsingle _ t hs]
              rfl
            | error e1 => rw [hs] at heq; dsimp only at heq; simp [Prod.ext_iff] at heq
          · rw [dif_neg h1] at heq
            rcases hrec1 : solveRange orc lines st (st + (en - st) / 2) out (b + 1) sg
              with ⟨r1, b1, sg1⟩
            rw [hrec1] at heq
            cases r1 with
            | ok out1 =>
              dsimp only at heq
              have e1 := ih st (st + (en - st) / 2) (by omega) (by omega)
                out (b + 1) sg out1 b1 sg1 hrec1
              have e2 := ih (st + (en - st) / 2) en (by omega) hlen
                out1 b1 sg1 out' b' sg' heq
              rw [e2, e1, slice_split lines st (st + (en - st) / 2) en (by omega) (by omega),
                List.map_append, writeSlots_append]
              have hlen1 : ((slice lines st (st + (en - st) / 2)).map f).length
                  = (en - st) / 2 := by
                rw [List.length_map, slice_length lines st (st + (en - st) / 2) (by omega) (by omega)]
                omega
              rw [hlen1]
            | error e1 => dsimp only at heq; simp [Prod.ext_iff] at heq
      | error e0 =>
        rw [hb] at heq; dsimp only at heq
        by_cases h1 : en - st = 1
        · rw [dif_pos h1] at heq
          cases hs : orc.single (lines.getD st "") with
          | ok t =>
            rw [hs] at heq; dsimp only at heq
            obtain ⟨rfl, rfl, rfl⟩ :
                out.set st (some t) = out' ∧ b + 1 = b' ∧ sg + 1 = sg' := by
              simpa [Prod.ext_iff] using heq
            have hen : en = st + 1 := by omega
            subst hen
            rw [slice_singleton lines st (by omega), Hsingle _ t hs]
            rfl
          | error e1 => rw [hs] at heq; dsimp only at heq; simp [Prod.ext_iff] at heq
        · rw [dif_neg h1] at heq
          rcases hrec1 : solveRange orc lines st (st + (en - st) / 2) out (b + 1) sg
            with ⟨r1, b1, sg1⟩
          rw [hrec1] at heq
          cases r1 with
          | ok out1 =>
            dsimp only at heq
            have e1 := ih st (st + (en - st) / 2) (by omega) (by omega)
              out (b + 1) sg out1 b1 sg1 hrec1
            have e2 := ih (st + (en - st) / 2) en (by omega) hlen
              out1 b1 sg1 out' b' sg' heq
            rw [e2, e1, slice_split lines st (st + (en - st) / 2) en (by omega) (by omega),
              List.map_append, writeSlots_append]
            have hlen1 : ((slice lines st (st + (en - st) / 2)).map f).length
                = (en - st) / 2 := by
              rw [List.length_map, slice_length lines st (st + (en - st) / 2) (by omega) (by omega)]
              omega
            rw [hlen1]
          | error e1 => dsimp only at heq; simp [Prod.ext_iff] at heq


/-! ### The worst case: every bulk reply has a mismatched length. -/
/-- In the worst case — every bulk call on a non-empty slice answers
`Ok` with a mismatched length, and every single-line fallback succeeds
(say with translation `g`) — the bisection on a non-empty range `[st, en)`
resolves every line by fallback, making exactly `2*(en-st) - 1` bulk
calls and `en - st` single-line calls. -/
theorem solveRange_worst (orc : Oracle) (lines : List String) (g : String → String)
    (Hb : ∀ xs, xs ≠ [] → ∃ v, orc.bulk xs = .ok v ∧ v.length ≠ xs.length)
    (Hs : ∀ x, orc.single x = .ok (g x)) :
    ∀ (d st en : Nat), en - st ≤ d → st < en → en ≤ lines.length →
    ∀ out b sg,
      solveRange orc lines st en out b sg =
        (.ok (writeSlots out st ((slice lines st en).map g)),
          b + (2 * (en - st) - 1), sg + (en - st)) := by
  intro d
  induction d with
  | zero => intro st en hd hlt; omega
  | succ d ih =>
    intro st en hd hlt hlen out b sg
    have h0 : ¬(en - st = 0) := by omega
    rw [solveRange, dif_neg h0]
    have hslen : (slice lines st en).length = en - st :=
      slice_length lines st en (by omega) hlen
    have hsne : slice lines st en ≠ [] := by
      intro hnil
      rw [hnil] at hslen
      simp at hslen
      omega
    obtain ⟨v, hb, hvne⟩ := Hb (slice lines st en) hsne
    rw [hb]
    dsimp only
    rw [if_neg (by omega)]
    by_cases h1 : en - st = 1
    · rw [dif_pos h1]
      rw [Hs (lines.getD st "")]
      dsimp only
      have hen : en = st + 1 := by omega
      subst hen
      rw [slice_singleton lines st (by omega)]
      simp [writeSlots]
    · rw [dif_neg h1]
      have hmid : st < st + (en - st) / 2 := by omega
      rw [ih st (st + (en - st) / 2) (by omega) hmid (by omega) out (b + 1) sg]
      dsimp only
      rw [ih (st + (en - st) / 2) en (by omega) (by omega) hlen _ _ _]
      rw [slice_split lines st (st + (en - st) / 2) en (by omega) (by omega),
        List.map_append, writeSlots_append]
      have hlen1 : ((slice lines st (st + (en - st) / 2)).map g).length
          = (en - st) / 2 := by
        rw [List.length_map, slice_length lines st (st + (en - st) / 2) (by omega) (by omega)]
        omega
      rw [hlen1]
      have c1 : b + 1 + (2 * (st + (en - st) / 2 - st) - 1) + (2 * (en - (st + (en - st) / 2)) - 1)
          = b + (2 * (en - st) - 1) := by omega
      have c2 : sg + (st + (en - st) / 2 - st) + (en - (st + (en - st) / 2))
          = sg + (en - st) := by omega
      rw [c1, c2]


/-! ### Top-level facts about `translate_batch_strict`. -/
/-- Worst case at the window level: with every bulk reply mismatched and
fallback translating by `g`, `translate_batch_strict` succeeds with the
element-wise fallback translations, after exactly `2*n - 1` bulk calls
and `n` single-line calls. -/
theorem tbsStats_worst (orc : Oracle) (lines : List String) (g : String → String)
    (Hb : ∀ xs, xs ≠ [] → ∃ v, orc.bulk xs = .ok v ∧ v.length ≠ xs.length)
    (Hs : ∀ x, orc.single x = .ok (g x))
    (hne : lines ≠ []) :
    tbsStats orc lines =
      (.ok (lines.map g), 2 * lines.length - 1, lines.length) := by
  have hn : 0 < lines.length := List.length_pos.mpr hne
  unfold tbsStats
  rw [if_pos hn,
    tbsLoop_eq_solveRange orc lines lines.length 0 lines.length (by omega) [] _ 0 0,
    solveRange_worst orc lines g Hb Hs lines.length 0 lines.length (by omega) hn
      (le_refl _) _ 0 0]
  dsimp only
  rw [tbsLoop]
  rw [slice_all, writeSlots_eq_map_some _ _ (by simp)]
  dsimp only
  rw [collectSlots_map_some]
  simp


/-- A successful strict translation always has exactly one output per
input line, whatever the services answered. -/
theorem tbs_ok_length (orc : Oracle) (lines : List String) (r : List String)
    (h : translate_batch_strict orc lines = .ok r) :
    r.length = lines.length := by
  unfold translate_batch_strict tbsStats at h
  by_cases hn : 0 < lines.length
  · rw [if_pos hn,
      tbsLoop_eq_solveRange orc lines lines.length 0 lines.length (by omega) [] _ 0 0] at h
    rcases hrec : solveRange orc lines 0 lines.length
        (List.replicate lines.length none) 0 0 with ⟨r1, b1, sg1⟩
    rw [hrec] at h
    cases r1 with
    | ok out' =>
      dsimp only at h
      rw [tbsLoop] at h
      dsimp only at h
      have hlen := ((solveRange_spec orc lines lines.length 0 lines.length
        (by omega) (le_refl _) (List.replicate lines.length none) 0 0
        (by simp)).1 out' b1 sg1 hrec).1
      rw [collectSlots_length out' 0 r h, hlen]
      simp
    | error e => dsimp only at h; cases h
  · rw [if_neg hn] at h
    rw [tbsLoop] at h
    dsimp only at h
    have hl : lines.length = 0 := by omega
    rw [hl] at h
    simp only [List.replicate] at h
    cases h
    simp [hl]


/-- With a consistent oracle, a successful strict translation is exactly
the element-wise translation of the input lines, in order. -/
theorem tbs_ok_consistent (orc : Oracle) (lines : List String) (f : String → String)
    (Hbulk : ∀ xs v, orc.bulk xs = .ok v → v.length = xs.length → v = xs.map f)
    (Hsingle : ∀ x t, orc.single x = .ok t → t = f x)
    (r : List String)
    (h : translate_batch_strict orc lines = .ok r) :
    r = lines.map f := by
  unfold translate_batch_strict tbsStats at h
  by_cases hn : 0 < lines.length
  · rw [if_pos hn,
      tbsLoop_eq_solveRange orc lines lines.length 0 lines.length (by omega) [] _ 0 0] at h
    rcases hrec : solveRange orc lines 0 lines.length
        (List.replicate lines.length none) 0 0 with ⟨r1, b1, sg1⟩
    rw [hrec] at h
    cases r1 with
    | ok out' =>
      dsimp only at h
      rw [tbsLoop] at h
      dsimp only at h
      have hout : out' = writeSlots (List.replicate lines.length none) 0
          ((slice lines 0 lines.length).map f) :=
        solveRange_consistent orc lines f Hbulk Hsingle lines.length 0 lines.length
          (by omega) (le_refl _) _ 0 0 out' b1 sg1 hrec
      rw [hout, slice_all, writeSlots_eq_map_some _ _ (by simp),
        collectSlots_map_some] at h
      cases h
      rfl
    | error e => dsimp only at h; cases h
  · rw [if_neg hn] at h
    rw [tbsLoop] at h
    dsimp only at h
    have hl : lines.length = 0 := by omega
    rw [hl] at h
    simp only [List.replicate] at h
    cases h
    have : lines = [] := List.length_eq_zero.mp hl
    rw [this]
    rfl


/-- When the strict translation fails, the error is exactly a failed
single-line fallback reply for one of the submitted lines: the source
propagates it unchanged, and the defensive `"Failed to translate line"`
check is unreachable. -/
theorem tbs_error_from_single (orc : Oracle) (lines : List String) (e : TrErr)
    (h : translate_batch_strict orc lines = .error e) :
    ∃ x, x ∈ lines ∧ orc.single x = .error e := by
  unfold translate_batch_strict tbsStats at h
  by_cases hn : 0 < lines.length
  · rw [if_pos hn,
      tbsLoop_eq_solveRange orc lines lines.length 0 lines.length (by omega) [] _ 0 0] at h
    rcases hrec : solveRange orc lines 0 lines.length
        (List.replicate lines.length none) 0 0 with ⟨r1, b1, sg1⟩
    rw [hrec] at h
    have hspec := solveRange_spec orc lines lines.length 0 lines.length
      (by omega) (le_refl _) (List.replicate lines.length none) 0 0 (by simp)
    cases r1 with
    | ok out' =>
      dsimp only at h
      rw [tbsLoop] at h
      dsimp only at h
      obtain ⟨hlen, _, hfill⟩ := hspec.1 out' b1 sg1 hrec
      obtain ⟨rr, hrr⟩ := collectSlots_all_some out' 0 (by
        intro j hj
        exact hfill j (by omega) (by rw [hlen] at hj; simpa using hj))
      rw [hrr] at h
      cases h
    | error e1 =>
      dsimp only at h
      cases h
      exact hspec.2 _ b1 sg1 hrec
  · rw [if_neg hn] at h
    rw [tbsLoop] at h
    dsimp only at h
    have hl : lines.length = 0 := by omega
    rw [hl] at h
    simp only [List.replicate] at h
    cases h


/-! ### The window loop of `translate_lines_zh_tw`. -/
theorem drop_eq_slice_append (lines : List String) (idx en : Nat) (h : idx ≤ en) :
    lines.drop idx = slice lines idx en ++ lines.drop en := by
  unfold slice
  conv_lhs => rw [← List.take_append_drop (en - idx) (lines.drop idx)]
  congr 1
  rw [List.drop_drop]
  congr 1
  omega


theorem tlGo_spec (orc : Oracle) (lines : List String) (bs : Nat) :
    ∀ (d idx : Nat), lines.length - idx ≤ d → ∀ acc,
      (∀ r, tlGo orc lines bs idx acc = .ok r →
        r.length = acc.length + (lines.length - idx)) ∧
      (∀ e, tlGo orc lines bs idx acc = .error e →
        ∃ x, x ∈ lines ∧ orc.single x = .error e) := by
  intro d
  induction d with
  | zero =>
    intro idx hd acc
    have h : ¬ idx < lines.length := by omega
    constructor
    · intro r hr
      rw [tlGo, dif_neg h] at hr
      cases hr
      omega
    · intro e he
      rw [tlGo, dif_neg h] at he
      cases he
  | succ d ih =>
    intro idx hd acc
    by_cases h : idx < lines.length
    · have hen1 : idx < min (idx + max bs 1) lines.length := by omega
      have hen2 : min (idx + max bs 1) lines.length ≤ lines.length := by omega
      constructor
      · intro r hr
        rw [tlGo, dif_pos h] at hr
        cases hw : translate_batch_strict orc
            (slice lines idx (min (idx + max bs 1) lines.length)) with
        | ok t =>
          rw [hw] at hr
          dsimp only at hr
          have hrec := (ih (min (idx + max bs 1) lines.length) (by omega)
            (acc ++ t)).1 r hr
          have ht : t.length = min (idx + max bs 1) lines.length - idx := by
            rw [tbs_ok_length orc _ t hw,
              slice_length lines idx _ (by omega) hen2]
          rw [hrec, List.length_append, ht]
          omega
        | error e0 =>
          rw [hw] at hr
          dsimp only at hr
          cases hr
      · intro e he
        rw [tlGo, dif_pos h] at he
        cases hw : translate_batch_strict orc
            (slice lines idx (min (idx + max bs 1) lines.length)) with
        | ok t =>
          rw [hw] at he
          dsimp only at he
          exact (ih (min (idx + max bs 1) lines.length) (by omega) (acc ++ t)).2 e he
        | error e0 =>
          rw [hw] at he
          dsimp only at he
          cases he
          obtain ⟨x, hx, hxe⟩ := tbs_error_from_single orc _ _ hw
          exact ⟨x, slice_subset lines idx _ x hx, hxe⟩
    · constructor
      · intro r hr
        rw [tlGo, dif_neg h] at hr
        cases hr
        omega
      · intro e he
        rw [tlGo, dif_neg h] at he
        cases he


theorem tlGo_consistent (orc : Oracle) (lines : List String) (f : String → String)
    (bs : Nat)
    (Hbulk : ∀ xs v, orc.bulk xs = .ok v → v.length = xs.length → v = xs.map f)
    (Hsingle : ∀ x t, orc.single x = .ok t → t = f x) :
    ∀ (d idx : Nat), lines.length - idx ≤ d → ∀ acc r,
      tlGo orc lines bs idx acc = .ok r →
      r = acc ++ (lines.drop idx).map f := by
  intro d
  induction d with
  | zero =>
    intro idx hd acc r hr
    have h : ¬ idx < lines.length := by omega
    rw [tlGo, dif_neg h] at hr
    cases hr
    rw [List.drop_eq_nil_of_le (by omega)]
    simp
  | succ d ih =>
    intro idx hd acc r hr
    by_cases h : idx < lines.length
    · rw [tlGo, dif_pos h] at hr
      cases hw : translate_batch_strict orc
          (slice lines idx (min (idx + max bs 1) lines.length)) with
      | ok t =>
        rw [hw] at hr
        dsimp only at hr
        have hrec := ih (min (idx + max bs 1) lines.length) (by omega) (acc ++ t) r hr
        have ht : t = (slice lines idx (min (idx + max bs 1) lines.length)).map f :=
          tbs_ok_consistent orc _ f Hbulk Hsingle t hw
        rw [hrec, ht,
          drop_eq_slice_append lines idx (min (idx + max bs 1) lines.length) (by omega),
          List.map_append, List.append_assoc]
      | error e0 =>
        rw [hw] at hr
        dsimp only at hr
        cases hr
    · rw [tlGo, dif_neg h] at hr
      cases hr
      rw [List.drop_eq_nil_of_le (by omega)]
      simp


/-! ### Top-level facts about `translate_lines_zh_tw`. -/
theorem translate_lines_ok_length (orc : Oracle) (lines : List String)
    (bs : Nat) (r : List String)
    (h : translate_lines_zh_tw orc lines bs = .ok r) :
    r.length = lines.length := by
  unfold translate_lines_zh_tw at h
  by_cases hne : lines.isEmpty
  · rw [if_pos hne] at h
    cases h
    simp [List.isEmpty_iff.mp hne]
  · rw [if_neg hne] at h
    have := (tlGo_spec orc lines bs lines.length 0 (by omega) []).1 r h
    simpa using this


theorem translate_lines_ok_consistent (orc : Oracle) (lines : List String)
    (f : String → String) (bs : Nat)
    (Hbulk : ∀ xs v, orc.bulk xs = .ok v → v.length = xs.length → v = xs.map f)
    (Hsingle : ∀ x t, orc.single x = .ok t → t = f x)
    (r : List String)
    (h : translate_lines_zh_tw orc lines bs = .ok r) :
    r = lines.map f := by
  unfold translate_lines_zh_tw at h
  by_cases hne : lines.isEmpty
  · rw [if_pos hne] at h
    cases h
    simp [List.isEmpty_iff.mp hne]
  · rw [if_neg hne] at h
    have := tlGo_consistent orc lines f bs Hbulk Hsingle lines.length 0
      (by omega) [] r h
    simpa using this


theorem translate_lines_error_from_single (orc : Oracle) (lines : List String)
    (bs : Nat) (e : TrErr)
    (h : translate_lines_zh_tw orc lines bs = .error e) :
    ∃ x, x ∈ lines ∧ orc.single x = .error e := by
  unfold translate_lines_zh_tw at h
  by_cases hne : lines.isEmpty
  · rw [if_pos hne] at h
    cases h
  · rw [if_neg hne] at h
    exact (tlGo_spec orc lines bs lines.length 0 (by omega) []).2 e h


/-! ### Batch size 0 behaves exactly like batch size 1. -/
theorem tlGo_batch_zero_eq_one (orc : Oracle) (lines : List String) :
    ∀ (d idx : Nat), lines.length - idx ≤ d → ∀ acc,
      tlGo orc lines 0 idx acc = tlGo orc lines 1 idx acc := by
  intro d
  induction d with
  | zero =>
    intro idx hd acc
    have h : ¬ idx < lines.length := by omega
    rw [tlGo, dif_neg h, tlGo, dif_neg h]
  | succ d ih =>
    intro idx hd acc
    by_cases h : idx < lines.length
    · rw [tlGo, dif_pos h, tlGo, dif_pos h]
      have hm : max 0 1 = max 1 1 := rfl
      rw [hm]
      cases hw : translate_batch_strict orc
          (slice lines idx (min (idx + max 1 1) lines.length)) with
      | ok t =>
        dsimp only
        exact ih (min (idx + max 1 1) lines.length) (by omega) (acc ++ t)
      | error e0 => dsimp only
    · rw [tlGo, dif_neg h, tlGo, dif_neg h]


theorem mergeChunksFrom_all_some (c : ℚ) :
    ∀ (ls : List (List WhisperSegment)) (i : Nat),
      mergeChunksFrom c i (ls.map some) = .ok (flattenIdxFrom c i ls) := by
  intro ls
  induction ls with
  | nil => intro i; rfl
  | cons l rest ih =>
    intro i
    rw [List.map_cons, mergeChunksFrom, ih (i + 1), flattenIdxFrom]


theorem mergeChunksFrom_missing (c : ℚ) :
    ∀ (chunks : List (Option (List WhisperSegment))) (i k : Nat),
      chunks[i]? = some none →
      (∀ j, j < i → ∃ l, chunks[j]? = some (some l)) →
      mergeChunksFrom c k chunks = .error (.noSegments (k + i)) := by
  intro chunks
  induction chunks with
  | nil => intro i k h1 _; simp at h1
  | cons o rest ih =>
    intro i k h1 h2
    cases i with
    | zero =>
      simp only [List.getElem?_cons_zero, Option.some.injEq] at h1
      subst h1
      rfl
    | succ m =>
      obtain ⟨l, hl⟩ := h2 0 (by omega)
      simp only [List.getElem?_cons_zero, Option.some.injEq] at hl
      subst hl
      rw [List.getElem?_cons_succ] at h1
      have hrec := ih m (k + 1) h1 (by
        intro j hj
        have := h2 (j + 1) (by omega)
        rwa [List.getElem?_cons_succ] at this)
      rw [mergeChunksFrom, hrec]
      have : k + 1 + m = k + (m + 1) := by omega
      rw [this]


theorem flattenIdxFrom_mem (c : ℚ) :
    ∀ (ls : List (List WhisperSegment)) (k i : Nat)
      (l : List WhisperSegment) (s : WhisperSegment),
      ls[i]? = some l → s ∈ l →
      (⟨s.start + ((k + i : Nat) : ℚ) * c, s.stop + ((k + i : Nat) : ℚ) * c, s.text⟩
        : WhisperSegment) ∈ flattenIdxFrom c k ls := by
  intro ls
  induction ls with
  | nil => intro k i l s h _; simp at h
  | cons l0 rest ih =>
    intro k i l s hl hs
    cases i with
    | zero =>
      simp only [List.getElem?_cons_zero, Option.some.injEq] at hl
      subst hl
      rw [flattenIdxFrom]
      apply List.mem_append_left
      unfold offsetChunk
      simp only [Nat.add_zero]
      exact List.mem_map_of_mem _ hs
    | succ m =>
      rw [List.getElem?_cons_succ] at hl
      rw [flattenIdxFrom]
      apply List.mem_append_right
      have hmem := ih (k + 1) m l s hl hs
      have harith : k + 1 + m = k + (m + 1) := by omega
      rwa [harith] at hmem


theorem flattenIdxFrom_chain (c : ℚ) (hc : 0 ≤ c) :
    ∀ (ls : List (List WhisperSegment)) (i : Nat),
      (∀ l ∈ ls, l.Chain' (fun a b => a.start ≤ b.start)) →
      (∀ l ∈ ls, ∀ s ∈ l, 0 ≤ s.start ∧ s.start ≤ c) →
      (flattenIdxFrom c i ls).Chain' (fun a b => a.start ≤ b.start) ∧
      ∀ s ∈ flattenIdxFrom c i ls, (i : ℚ) * c ≤ s.start := by
  intro ls
  induction ls with
  | nil =>
    intro i _ _
    constructor
    · rw [flattenIdxFrom]; exact List.chain'_nil
    · intro s hs; rw [flattenIdxFrom] at hs; simp at hs
  | cons l rest ih =>
    intro i hsort hbnd
    obtain ⟨ihc, ihlo⟩ := ih (i + 1)
      (fun l' hl' => hsort l' (by simp [hl']))
      (fun l' hl' => hbnd l' (by simp [hl']))
    have hlocal : ∀ s ∈ l, 0 ≤ s.start ∧ s.start ≤ c := hbnd l (by simp)
    constructor
    · rw [flattenIdxFrom, List.chain'_append]
      refine ⟨?_, ihc, ?_⟩
      · unfold offsetChunk
        exact List.chain'_map_of_chain' _
          (fun a b hab => by simpa using add_le_add_right hab ((i : ℚ) * c))
          (hsort l (by simp))
      · intro x hx y hy
        have hxm : x ∈ offsetChunk c i l := List.mem_of_getLast?_eq_some hx
        have hym : y ∈ flattenIdxFrom c (i + 1) rest := List.mem_of_mem_head? hy
        obtain ⟨s, hs, rfl⟩ := List.mem_map.mp hxm
        have h1 : s.start ≤ c := (hlocal s hs).2
        have h2 : ((i : ℚ) + 1) * c ≤ y.start := by
          have := ihlo y hym
          push_cast at this
          linarith
        simp only
        nlinarith [h2]
    · intro s hs
      rw [flattenIdxFrom] at hs
      rcases List.mem_append.mp hs with hs | hs
      · obtain ⟨s0, hs0, rfl⟩ := List.mem_map.mp hs
        have := (hlocal s0 hs0).1
        simp only
        linarith
      · have := ihlo s hs
        have hstep : (i : ℚ) * c ≤ ((i : ℚ) + 1) * c := by nlinarith
        push_cast at this
        linarith


/-! ### Retry loop: delay-count bound. -/
theorem retryFrom_delays_le {E A : Type} (call : Nat → Except E A) (tr : E → Bool) :
    ∀ (fuel attempt : Nat), attempt ≤ 4 →
      (retryFrom call tr 5 attempt fuel).2.length ≤ 4 - attempt := by
  intro fuel
  induction fuel with
  | zero =>
    intro attempt _
    rw [retryFrom]
    cases hc : call attempt with
    | ok a => simp
    | error e =>
      dsimp only
      by_cases ht : tr e
      · rw [if_pos ht]
        by_cases h5 : attempt + 1 ≥ 5
        · rw [if_pos h5]; simp
        · rw [if_neg h5]; simp
      · rw [if_neg ht]; simp
  | succ fuel ih =>
    intro attempt hat
    rw [retryFrom]
    cases hc : call attempt with
    | ok a => simp
    | error e =>
      dsimp only
      by_cases ht : tr e
      · rw [if_pos ht]
        by_cases h5 : attempt + 1 ≥ 5
        · rw [if_pos h5]; simp
        · rw [if_neg h5]
          dsimp only
          have := ih (attempt + 1) (by omega)
          simp only [List.length_cons]
          omega
      · rw [if_neg ht]; simp


/-! ### Claim theorems. -/
/-- Claim C1 (amended): for every line list and batch size, if
`translate_lines_zh_tw` succeeds, the result has exactly one entry per
line and is the element-wise translation of the lines in order (for any
service consistent with a translation function `f`); otherwise the call
fails with the propagated single-line-fallback error itself — which does
not name a line index. -/
theorem claim_C1 (orc : Oracle) (lines : List String) (batch_size : Nat)
    (f : String → String)
    (Hbulk : ∀ xs v, orc.bulk xs = .ok v → v.length = xs.length → v = xs.map f)
    (Hsingle : ∀ x t, orc.single x = .ok t → t = f x) :
    (∀ r, translate_lines_zh_tw orc lines batch_size = .ok r →
      r.length = lines.length ∧ r = lines.map f) ∧
    (∀ e, translate_lines_zh_tw orc lines batch_size = .error e →
      ∃ x, x ∈ lines ∧ orc.single x = .error e) := by
  constructor
  · intro r hr
    exact ⟨translate_lines_ok_length orc lines batch_size r hr,
      translate_lines_ok_consistent orc lines f batch_size Hbulk Hsingle r hr⟩
  · intro e he
    exact translate_lines_error_from_single orc lines batch_size e he


/-- Claim C1, counterexample to the claim as stated: a failing run whose
error is the fallback's service error, not an error naming a line
index. -/
theorem claim_C1_counterexample :
    translate_lines_zh_tw failingOracle ["a"] 2 =
      .error (.service 400 "bad request") ∧
    ∀ i : Nat, (TrErr.service 400 "bad request") ≠ .lineFailed i := by
  constructor
  · simp [translate_lines_zh_tw, tlGo, translate_batch_strict, tbsStats,
      tbsLoop, slice, collectSlots, failingOracle]
  · intro i h
    cases h


/-- Claim C1, witness. -/
theorem claim_C1_witness :
    (["a", "b"] : List String).length = (["a", "b"] : List String).length ∧
    (["a", "b"] : List String) = ["a", "b"].map (fun s => s) :=
  (claim_C1 echoOracle ["a", "b"] 2 (fun s => s)
    (fun xs v hv _ => by
      simp only [echoOracle] at hv
      cases hv
      simp)
    (fun x t ht => by
      simp only [echoOracle] at ht
      cases ht
      rfl)).1 ["a", "b"]
    (by simp [translate_lines_zh_tw, tlGo, translate_batch_strict, tbsStats,
      tbsLoop, slice, writeSlots, collectSlots, echoOracle])


/-- Claim C2 (amended): in the worst case — every bulk call answers with
a mismatched length — the bisection terminates, every line is resolved by
single-line fallback, and the call counts are exactly `2*n - 1` bulk
calls plus `n` fallback calls, i.e. `3*n - 1` total (not `2*n - 1`). -/
theorem claim_C2 (orc : Oracle) (lines : List String) (g : String → String)
    (Hb : ∀ xs, xs ≠ [] → ∃ v, orc.bulk xs = .ok v ∧ v.length ≠ xs.length)
    (Hs : ∀ x, orc.single x = .ok (g x))
    (hne : lines ≠ []) :
    tbsStats orc lines = (.ok (lines.map g), 2 * lines.length - 1, lines.length) ∧
    (2 * lines.length - 1) + lines.length = 3 * lines.length - 1 := by
  refine ⟨tbsStats_worst orc lines g Hb Hs hne, ?_⟩
  have : lines.length ≠ 0 := fun h => hne (List.length_eq_zero.mp h)
  omega


/-- Claim C2, counterexample to the stated `2*len - 1` bound on the total
number of calls: on two lines with every bulk reply mismatched, the run
makes 3 bulk calls and 2 fallback calls — 5 calls, exceeding
`2*2 - 1 = 3`. -/
theorem claim_C2_counterexample :
    tbsStats worstOracle ["a", "b"] = (.ok ["a", "b"], 3, 2) ∧
    3 + 2 > 2 * 2 - 1 := by
  constructor
  · simp [tbsStats, tbsLoop, slice, writeSlots, collectSlots, worstOracle]
  · omega


/-- Claim C2, witness. -/
theorem claim_C2_witness :
    tbsStats worstOracle ["c"] = (.ok ["c"], 2 * 1 - 1, 1) ∧
    (2 * 1 - 1) + 1 = 3 * 1 - 1 := by
  have h := claim_C2 worstOracle ["c"] (fun x => x)
    (fun xs hxs => ⟨[], rfl, by
      simp only [List.length_nil]
      exact fun hl => hxs (List.length_eq_zero.mp hl.symm)⟩)
    (fun x => rfl) (by simp)
  simpa using h


/-- Claim C3 (confirmed): whenever every chunk reply carries a segment
list whose local starts are sorted and lie within `[0, chunkSeconds]`
(the speech-to-text interface contract), the merge succeeds, each segment
of chunk `i` appears offset by exactly `i * chunkSeconds` on both `start`
and `end`, and the merged starts are non-decreasing — with no sorting
step anywhere in the merge. -/
theorem claim_C3 (c : ℚ) (hc : 0 ≤ c) (chunkLists : List (List WhisperSegment))
    (Hsort : ∀ l ∈ chunkLists, l.Chain' (fun a b => a.start ≤ b.start))
    (Hbnd : ∀ l ∈ chunkLists, ∀ s ∈ l, 0 ≤ s.start ∧ s.start ≤ c) :
    mergeChunks c (chunkLists.map some) = .ok (flattenIdxFrom c 0 chunkLists) ∧
    (∀ (i : Nat) (l : List WhisperSegment) (s : WhisperSegment),
      chunkLists[i]? = some l → s ∈ l →
      (⟨s.start + (i : ℚ) * c, s.stop + (i : ℚ) * c, s.text⟩ : WhisperSegment)
        ∈ flattenIdxFrom c 0 chunkLists) ∧
    (flattenIdxFrom c 0 chunkLists).Chain' (fun a b => a.start ≤ b.start) := by
  refine ⟨mergeChunksFrom_all_some c chunkLists 0, ?_,
    (flattenIdxFrom_chain c hc chunkLists 0 Hsort Hbnd).1⟩
  intro i l s hl hs
  have hmem := flattenIdxFrom_mem c chunkLists 0 i l s hl hs
  simpa using hmem


/-- Claim C3, witness: a 2-chunk run with `chunkSeconds = 600`; chunk 1's
segment is shifted by 600 on both endpoints and the merged list is
sorted. -/
theorem claim_C3_witness :
    mergeChunks 600 ([[⟨0, 1, "a"⟩], [⟨2, 3, "b"⟩]].map some) =
      .ok (flattenIdxFrom 600 0 [[⟨0, 1, "a"⟩], [⟨2, 3, "b"⟩]]) ∧
    (⟨2 + (1 : ℚ) * 600, 3 + (1 : ℚ) * 600, "b"⟩ : WhisperSegment)
      ∈ flattenIdxFrom 600 0 [[⟨0, 1, "a"⟩], [⟨2, 3, "b"⟩]] ∧
    (flattenIdxFrom 600 0 [[⟨0, 1, "a"⟩], [⟨2, 3, "b"⟩]]).Chain'
      (fun a b => a.start ≤ b.start) := by
  have h := claim_C3 600 (by norm_num) [[⟨0, 1, "a"⟩], [⟨2, 3, "b"⟩]]
    (by
      intro l hl
      simp only [List.mem_cons, List.not_mem_nil, or_false] at hl
      rcases hl with rfl | rfl <;> exact List.chain'_singleton _)
    (by
      intro l hl s hs
      simp only [List.mem_cons, List.not_mem_nil, or_false] at hl
      rcases hl with rfl | rfl <;>
        simp only [List.mem_cons, List.not_mem_nil, or_false] at hs <;>
        rcases hs with rfl <;> norm_num)
  exact ⟨h.1, h.2.1 1 [⟨2, 3, "b"⟩] ⟨2, 3, "b"⟩ rfl (by simp), h.2.2⟩


/-- Claim C4 (confirmed): each of the three retry loops makes at most 5
calls; the sleep before retry `n` is `2^n * 1000` ms, i.e. `2^n`
seconds; and when five consecutive transient errors occur, the loop
returns the last observed error after the four sleeps
`2^1, 2^2, 2^3, 2^4` seconds. -/
theorem claim_C4 {E A : Type} (call : Nat → Except E A) (tr : E → Bool)
    (err : Nat → E)
    (hfail : ∀ k, k < 5 → call k = .error (err k))
    (htr : ∀ k, k < 5 → tr (err k) = true) :
    retryExec call tr =
      (.error (err 4), [backoffMs 1, backoffMs 2, backoffMs 3, backoffMs 4]) ∧
    (∀ n, backoffMs n = 2 ^ n * 1000) ∧
    (∀ (call2 : Nat → Except E A) (tr2 : E → Bool),
      (retryExec call2 tr2).2.length + 1 ≤ 5) := by
  refine ⟨?_, fun n => rfl, ?_⟩
  · have h0 := hfail 0 (by omega)
    have h1 := hfail 1 (by omega)
    have h2 := hfail 2 (by omega)
    have h3 := hfail 3 (by omega)
    have h4 := hfail 4 (by omega)
    have t0 := htr 0 (by omega)
    have t1 := htr 1 (by omega)
    have t2 := htr 2 (by omega)
    have t3 := htr 3 (by omega)
    have t4 := htr 4 (by omega)
    simp [retryExec, retryFrom, h0, h1, h2, h3, h4, t0, t1, t2, t3, t4]
  · intro call2 tr2
    have := retryFrom_delays_le call2 tr2 5 0 (by omega)
    simp only [retryExec]
    omega


/-- Claim C4, witness: a stream of five transient failures. -/
theorem claim_C4_witness :
    retryExec (fun k => (Except.error k : Except Nat Unit)) (fun _ => true) =
      (.error 4, [backoffMs 1, backoffMs 2, backoffMs 3, backoffMs 4]) :=
  (claim_C4 (fun k => (Except.error k : Except Nat Unit)) (fun _ => true)
    (fun k => k) (fun _ _ => rfl) (fun _ _ => rfl)).1


/-- Claim C5 (code_bug): the source's comments promise retries on
transient errors "(5xx/429)", but the classifier only substring-matches
`" 500 "`, `" 502 "`, `" 503 "`, `"429"` on a formatted message.  A 504
(a 5xx status) is classified terminal in every loop; in the two
translation loops the message starts with the status digits, so even a
plain 500 has no leading space and is classified terminal; and any
response body containing the digits `429` is classified transient
regardless of status. -/
theorem claim_C5_code_bug :
    (500 ≤ 504 ∧ 504 < 600 ∧
      isTransientMsg (transcriptionErrMsg 504 "") = false ∧
      isTransientMsg (translationErrMsg 504 "") = false) ∧
    isTransientMsg (translationErrMsg 500 "") = false ∧
    isTransientMsg (transcriptionErrMsg 500 "") = true ∧
    isTransientMsg (translationErrMsg 400 "trace 429") = true :=
  ⟨⟨by omega, by omega, rfl, rfl⟩, rfl, rfl, rfl⟩


/-- Claim C6 (amended): the per-chunk fatal error fires when the reply
omits the `segments` field — naming the first such chunk — but a chunk
whose reply carries an empty segment list is accepted and simply
contributes no segments. -/
theorem claim_C6 (c : ℚ) (chunks : List (Option (List WhisperSegment))) (i : Nat)
    (h1 : chunks[i]? = some none)
    (h2 : ∀ j, j < i → ∃ l, chunks[j]? = some (some l)) :
    mergeChunks c chunks = .error (.noSegments i) ∧
    ∀ (ls : List (List WhisperSegment)),
      mergeChunks c (ls.map some) = .ok (flattenIdxFrom c 0 ls) := by
  constructor
  · have h := mergeChunksFrom_missing c chunks i 0 h1 h2
    simpa [mergeChunks] using h
  · intro ls
    exact mergeChunksFrom_all_some c ls 0


/-- Claim C6, counterexample to the claim as stated: chunk 0 yields zero
segments (an empty, present list) and the run succeeds anyway instead of
aborting. -/
theorem claim_C6_counterexample :
    mergeChunks 600 [some [], some [⟨0, 1, "a"⟩]] =
      .ok [⟨600, 601, "a"⟩] := by
  simp only [mergeChunks, mergeChunksFrom, offsetChunk, List.map_cons,
    List.map_nil, List.nil_append, List.append_nil, Except.ok.injEq,
    List.cons.injEq, and_true]
  norm_num


/-- Claim C6, witness: a run whose second chunk reply lacks the
`segments` field aborts naming chunk 1. -/
theorem claim_C6_witness :
    mergeChunks 600 [some [], none] = .error (.noSegments 1) :=
  (claim_C6 600 [some [], none] 1 rfl (fun j hj => ⟨[], by
    have hj0 : j = 0 := by omega
    subst hj0
    rfl⟩)).1


/-- Claim C8 (amended): when the single-line fallback itself fails, the
error that aborts the run is exactly that fallback error for one of the
submitted lines, propagated unchanged — the index-naming
`"Failed to translate line {i}"` error is a defensive dead path and is
never what the caller sees. -/
theorem claim_C8 (orc : Oracle) (lines : List String) (e : TrErr)
    (h : translate_batch_strict orc lines = .error e) :
    ∃ x, x ∈ lines ∧ orc.single x = .error e :=
  tbs_error_from_single orc lines e h


/-- Claim C8, counterexample to the claim as stated: a failed fallback
aborts the window with the service error itself, which names no line
index. -/
theorem claim_C8_counterexample :
    translate_batch_strict failingOracle ["a"] =
      .error (.service 400 "bad request") ∧
    ∀ i : Nat, (TrErr.service 400 "bad request") ≠ .lineFailed i := by
  constructor
  · simp [translate_batch_strict, tbsStats, tbsLoop, slice, collectSlots,
      failingOracle]
  · intro i h
    cases h


/-- Claim C8, witness. -/
theorem claim_C8_witness :
    ∃ x, x ∈ ["a"] ∧ failingOracle.single x = .error (.service 400 "bad request") :=
  claim_C8 failingOracle ["a"] (.service 400 "bad request")
    (by simp [translate_batch_strict, tbsStats, tbsLoop, slice, collectSlots,
      failingOracle])


/-- Claim C9 (confirmed): `translate_lines_zh_tw` with `batchSize = 0`
behaves exactly as with `batchSize = 1` — each window has size
`max(batchSize, 1)`, so the loop makes progress, terminates, and a
successful run still covers every line exactly once. -/
theorem claim_C9 (orc : Oracle) (lines : List String) :
    translate_lines_zh_tw orc lines 0 = translate_lines_zh_tw orc lines 1 ∧
    (∀ r, translate_lines_zh_tw orc lines 0 = .ok r →
      r.length = lines.length) := by
  constructor
  · unfold translate_lines_zh_tw
    by_cases h : lines.isEmpty
    · rw [if_pos h, if_pos h]
    · rw [if_neg h, if_neg h]
      exact tlGo_batch_zero_eq_one orc lines lines.length 0 (by omega) []
  · intro r hr
    exact translate_lines_ok_length orc lines 0 r hr


/-- Claim C9, witness: a 2-line run at batch size 0 succeeds and covers
both lines. -/
theorem claim_C9_witness :
    (["a", "b"] : List String).length = (["a", "b"] : List String).length :=
  (claim_C9 echoOracle ["a", "b"]).2 ["a", "b"]
    (by simp [translate_lines_zh_tw, tlGo, translate_batch_strict, tbsStats,
      tbsLoop, slice, writeSlots, collectSlots, echoOracle])


/-- Claim C10 (confirmed): on a successful HTTP response with a parsed
body, `translate_single_fallback` never fails because of the reply's
content: an absent or empty message content yields `Ok ""` (after
whitespace trimming and surrounding-double-quote stripping), and every
content yields some `Ok`. -/
theorem claim_C10 :
    (∀ content : Option String, ∃ t, singleFallbackReply content = .ok t) ∧
    singleFallbackReply none = .ok "" ∧
    singleFallbackReply (some "") = .ok "" ∧
    singleFallbackReply (some "  \"hi\" ") = .ok "hi" :=
  ⟨fun content => ⟨_, rfl⟩, rfl, rfl, rfl⟩


theorem jsonWs_false_of_rustIsWs_false (c : Char) (h : rustIsWs c = false) :
    jsonWs c = false := by
  cases hj : jsonWs c
  · rfl
  · exfalso
    unfold jsonWs at hj
    simp only [Bool.or_eq_true, decide_eq_true_eq] at hj
    rcases hj with ((rfl | rfl) | rfl) | rfl <;> exact absurd h (by decide)


theorem dropWhile_append_last (p : Char → Bool) (a : Char) (h : p a = false) :
    ∀ w : List Char, ∃ z, (w ++ [a]).dropWhile p = z ++ [a] := by
  intro w
  induction w with
  | nil =>
    refine ⟨[], ?_⟩
    rw [List.nil_append, List.dropWhile_cons, if_neg (by simp [h])]
  | cons c t ih =>
    by_cases hc : p c = true
    · obtain ⟨z, hz⟩ := ih
      exact ⟨z, by rw [List.cons_append, List.dropWhile_cons, if_pos hc]; exact hz⟩
    · exact ⟨c :: t, by
        rw [List.cons_append, List.dropWhile_cons, if_neg (by simp [hc])]⟩


theorem rustTrimL_cons_head (c0 : Char) (t : List Char) (h : rustIsWs c0 = false) :
    ∃ t2, rustTrimL (c0 :: t) = c0 :: t2 := by
  unfold rustTrimL
  rw [List.dropWhile_cons, if_neg (by simp [h])]
  rw [List.reverse_cons]
  obtain ⟨z, hz⟩ := dropWhile_append_last rustIsWs c0 h t.reverse
  rw [hz, List.reverse_append]
  exact ⟨z.reverse, rfl⟩


theorem rustTrimL_eq_self_of_ends (c1 c2 : Char) (mid : List Char)
    (h1 : rustIsWs c1 = false) (h2 : rustIsWs c2 = false) :
    rustTrimL (c1 :: (mid ++ [c2])) = c1 :: (mid ++ [c2]) := by
  unfold rustTrimL
  rw [List.dropWhile_cons, if_neg (by simp [h1])]
  have e1 : (c1 :: (mid ++ [c2])).reverse = c2 :: (mid.reverse ++ [c1]) := by
    simp
  rw [e1, List.dropWhile_cons, if_neg (by simp [h2])]
  simp


theorem parseValue_none_of_not_start (fuel : Nat) (l : List Char) (c0 : Char)
    (t : List Char) (hskip : skipWs l = c0 :: t) (hc : jsonStart c0 = false) :
    parseValue fuel l = none := by
  cases fuel with
  | zero => rfl
  | succ fuel =>
    rw [parseValue, hskip]
    dsimp only
    simp only [jsonStart, Bool.or_eq_false_iff, decide_eq_false_iff_not] at hc
    obtain ⟨⟨⟨⟨⟨⟨⟨h1, h2⟩, h3⟩, h4⟩, h5⟩, h6⟩, h7⟩, h8⟩ := hc
    rw [if_neg h1, if_neg h2, if_neg h3, if_neg h4, if_neg h5, if_neg h6,
      if_neg (by
        intro hor
        rcases hor with hor | hor
        · exact h7 hor
        · rw [h8] at hor; exact absurd hor (by decide))]


theorem startsWith3Backticks_cons_false (c0 : Char) (t : List Char)
    (h : c0 ≠ '`') : startsWith3Backticks (c0 :: t) = false := by
  unfold startsWith3Backticks
  cases hbe : ('`' == c0) with
  | false => simp [List.isPrefixOf, hbe]
  | true => exact absurd (beq_iff_eq.mp hbe).symm h


theorem tsmAux_fuel_irrel (pat : List Char) :
    ∀ (d : Nat) (l : List Char) (f1 f2 : Nat), l.length ≤ d →
      l.length < f1 → l.length < f2 →
      trimStartMatchesAux pat f1 l = trimStartMatchesAux pat f2 l := by
  intro d
  induction d with
  | zero =>
    intro l f1 f2 hd h1 h2
    have hl : l = [] := List.length_eq_zero.mp (by omega)
    subst hl
    cases f1 with
    | zero => omega
    | succ f1 =>
      cases f2 with
      | zero => omega
      | succ f2 =>
        rw [trimStartMatchesAux, trimStartMatchesAux]
        by_cases hcond : pat ≠ [] ∧ pat.isPrefixOf ([] : List Char)
        · exfalso
          exact hcond.1 (List.prefix_nil.mp (List.isPrefixOf_iff_prefix.mp hcond.2))
        · rw [if_neg hcond, if_neg hcond]
  | succ d ih =>
    intro l f1 f2 hd h1 h2
    cases f1 with
    | zero => omega
    | succ f1 =>
      cases f2 with
      | zero => omega
      | succ f2 =>
        rw [trimStartMatchesAux, trimStartMatchesAux]
        by_cases hcond : pat ≠ [] ∧ pat.isPrefixOf l
        · rw [if_pos hcond, if_pos hcond]
          have hple : pat.length ≤ l.length :=
            (List.isPrefixOf_iff_prefix.mp hcond.2).length_le
          have hppos : 0 < pat.length := List.length_pos.mpr hcond.1
          have hdrop : (l.drop pat.length).length = l.length - pat.length := by
            simp
          exact ih (l.drop pat.length) f1 f2 (by omega) (by omega) (by omega)
        · rw [if_neg hcond, if_neg hcond]


theorem tsm_step (pat l : List Char) (hne : pat ≠ [])
    (hp : pat.isPrefixOf l = true) :
    trimStartMatches pat l = trimStartMatches pat (l.drop pat.length) := by
  unfold trimStartMatches
  rw [trimStartMatchesAux, if_pos ⟨hne, hp⟩]
  have hple : pat.length ≤ l.length := (List.isPrefixOf_iff_prefix.mp hp).length_le
  have hppos : 0 < pat.length := List.length_pos.mpr hne
  exact tsmAux_fuel_irrel pat (l.drop pat.length).length (l.drop pat.length)
    l.length ((l.drop pat.length).length + 1) (le_refl _) (by simp; omega)
    (by omega)


theorem tsm_stop (pat l : List Char) (h : ¬(pat ≠ [] ∧ pat.isPrefixOf l)) :
    trimStartMatches pat l = l := by
  unfold trimStartMatches
  rw [trimStartMatchesAux, if_neg h]


/-! ### The brace scanner on prefixed and extended input. -/
theorem efjoAux_append (r : List Char) :
    ∀ (l : List Char) (d : Int) (acc : Option (List Char)) (res : List Char),
      extract_first_json_object_aux l d acc = some res →
      extract_first_json_object_aux (l ++ r) d acc = some res := by
  intro l
  induction l with
  | nil =>
    intro d acc res h
    rw [extract_first_json_object_aux] at h
    cases h
  | cons c t ih =>
    intro d acc res h
    rw [List.cons_append]
    rw [extract_first_json_object_aux] at h
    rw [extract_first_json_object_aux]
    by_cases h1 : c = '\x7b'
    · rw [if_pos h1] at h ⊢
      exact ih _ _ _ h
    · rw [if_neg h1] at h ⊢
      by_cases h2 : c = '\x7d'
      · rw [if_pos h2] at h ⊢
        cases hacc : acc.map (fun a => a ++ [c]) with
        | some a =>
          rw [hacc] at h
          dsimp only at h ⊢
          by_cases h3 : d - 1 = 0
          · rw [if_pos h3] at h ⊢
            exact h
          · rw [if_neg h3] at h ⊢
            exact ih _ _ _ h
        | none =>
          rw [hacc] at h
          dsimp only at h ⊢
          exact ih _ _ _ h
      · rw [if_neg h2] at h ⊢
        exact ih _ _ _ h


theorem efjoAux_skip :
    ∀ (l : List Char), (∀ c ∈ l, c ≠ '\x7b' ∧ c ≠ '\x7d') →
    ∀ rest : List Char,
      extract_first_json_object_aux (l ++ rest) 0 none =
        extract_first_json_object_aux rest 0 none := by
  intro l
  induction l with
  | nil => intro _ rest; rfl
  | cons c t ih =>
    intro hbr rest
    have hc := hbr c (by simp)
    rw [List.cons_append, extract_first_json_object_aux,
      if_neg hc.1, if_neg hc.2]
    exact ih (fun c2 hc2 => hbr c2 (by simp [hc2])) rest


/-! ### The three presentation forms of the reply. -/
theorem tryParse_of_shape (s : String) (mid : List Char)
    (hs : s.toList = '\x7b' :: (mid ++ ['\x7d'])) :
    try_parse_translations_json s = parseDirect s := by
  unfold try_parse_translations_json
  have htrim : rustTrimL s.toList = s.toList := by
    rw [hs]
    exact rustTrimL_eq_self_of_ends '\x7b' '\x7d' mid (by decide) (by decide)
  rw [htrim]
  rw [if_neg (by
    rw [hs, startsWith3Backticks_cons_false '\x7b' (mid ++ ['\x7d']) (by decide)]
    simp)]
  rfl


theorem parseDirect_not_start (s : String) (c0 : Char) (t : List Char)
    (hd : s.toList = c0 :: t) (hws : jsonWs c0 = false)
    (hc : jsonStart c0 = false) : parseDirect s = none := by
  have hskip : skipWs s.toList = c0 :: t := by
    rw [hd]
    unfold skipWs
    rw [List.dropWhile_cons, if_neg (by simp [hws])]
  unfold parseDirect jsonParse
  rw [parseValue_none_of_not_start _ s.toList c0 t hskip hc]


theorem rustTrimL_ws_wrap (c1 c2 : Char) (mid : List Char)
    (h1 : rustIsWs c1 = false) (h2 : rustIsWs c2 = false) :
    rustTrimL ('\n' :: ((c1 :: (mid ++ [c2])) ++ ['\n'])) = c1 :: (mid ++ [c2]) := by
  unfold rustTrimL
  rw [List.dropWhile_cons, if_pos (by decide)]
  rw [List.cons_append, List.dropWhile_cons, if_neg (by simp [h1])]
  have e1 : (c1 :: (mid ++ [c2] ++ ['\n'])).reverse =
      '\n' :: (c2 :: (mid.reverse ++ [c1])) := by simp
  rw [e1, List.dropWhile_cons, if_pos (by decide),
    List.dropWhile_cons, if_neg (by simp [h2])]
  simp


theorem tryParse_fenced (s : String) (mid : List Char)
    (hs : s.toList = '\x7b' :: (mid ++ ['\x7d'])) :
    try_parse_translations_json ("```json\n" ++ s ++ "\n```") = parseDirect s := by
  have hflat : ("```json\n" ++ s ++ "\n```").toList =
      '`' :: '`' :: '`' :: 'j' :: 's' :: 'o' :: 'n' :: '\n' ::
        (s.toList ++ ['\n', '`', '`', '`']) := by
    show ("```json\n" ++ s ++ "\n```").data = _
    rw [String.data_append, String.data_append]
    rfl
  have hform : ('`' :: '`' :: '`' :: 'j' :: 's' :: 'o' :: 'n' :: '\n' ::
        (s.toList ++ ['\n', '`', '`', '`']) : List Char) =
      '`' :: (('`' :: '`' :: 'j' :: 's' :: 'o' :: 'n' :: '\n' ::
        (s.toList ++ ['\n', '`', '`'])) ++ ['`']) := by
    simp
  have htrim : rustTrimL (("```json\n" ++ s ++ "\n```").toList) =
      ("```json\n" ++ s ++ "\n```").toList := by
    rw [hflat, hform]
    exact rustTrimL_eq_self_of_ends '`' '`' _ (by decide) (by decide)
  unfold try_parse_translations_json
  rw [htrim]
  rw [if_pos (by
    rw [hflat]
    rfl)]
  have hstrip : fenceStrip (("```json\n" ++ s ++ "\n```").toList) = s.toList := by
    unfold fenceStrip
    rw [hflat]
    -- strip the "```json" fence head once
    rw [tsm_step "```json".toList _ (by decide) (by
      show (['`', '`', '`', 'j', 's', 'o', 'n'] : List Char).isPrefixOf _ = true
      simp [List.isPrefixOf])]
    have hdrop : ('`' :: '`' :: '`' :: 'j' :: 's' :: 'o' :: 'n' :: '\n' ::
        (s.toList ++ ['\n', '`', '`', '`']) : List Char).drop
          ("```json".toList.length) = '\n' :: (s.toList ++ ['\n', '`', '`', '`']) := rfl
    rw [hdrop]
    -- every remaining front pattern starts with a backtick, the list with a newline
    rw [tsm_stop "```json".toList _ (by
      intro hcond
      have h := hcond.2
      simp [List.isPrefixOf] at h)]
    rw [tsm_stop "```JSON".toList _ (by
      intro hcond
      have h := hcond.2
      simp [List.isPrefixOf] at h)]
    rw [tsm_stop "```) ".toList _ (by
      intro hcond
      have h := hcond.2
      simp [List.isPrefixOf] at h)]
    rw [tsm_stop "```".toList _ (by
      intro hcond
      have h := hcond.2
      simp [List.isPrefixOf] at h)]
    -- now the end trim
    unfold trimEndMatches
    have hrev : ('\n' :: (s.toList ++ ['\n', '`', '`', '`']) : List Char).reverse =
        '`' :: '`' :: '`' :: ('\n' :: (s.toList.reverse ++ ['\n'])) := by simp
    rw [hrev]
    rw [tsm_step "```".toList.reverse _ (by decide) (by
      show (['`', '`', '`'] : List Char).isPrefixOf _ = true
      simp [List.isPrefixOf])]
    have hdrop2 : ('`' :: '`' :: '`' :: ('\n' :: (s.toList.reverse ++ ['\n']))
        : List Char).drop ("```".toList.reverse.length) =
        '\n' :: (s.toList.reverse ++ ['\n']) := rfl
    rw [hdrop2]
    rw [tsm_stop "```".toList.reverse _ (by
      intro hcond
      have h := hcond.2
      simp [List.isPrefixOf] at h)]
    have hrev2 : ('\n' :: (s.toList.reverse ++ ['\n']) : List Char).reverse =
        '\n' :: (s.toList ++ ['\n']) := by simp
    rw [hrev2]
    rw [hs]
    exact rustTrimL_ws_wrap '\x7b' '\x7d' mid (by decide) (by decide)
  rw [hstrip]
  rfl


theorem tryParse_prose_none (content : String) (c0 : Char) (t0 : List Char)
    (hd : content.toList = c0 :: t0)
    (hws : rustIsWs c0 = false) (hstart : jsonStart c0 = false)
    (hbt : c0 ≠ '`') :
    try_parse_translations_json content = none := by
  obtain ⟨t2, htrim⟩ := rustTrimL_cons_head c0 t0 hws
  unfold try_parse_translations_json
  rw [hd, htrim]
  rw [if_neg (by
    rw [startsWith3Backticks_cons_false c0 t2 hbt]
    simp)]
  exact parseDirect_not_start ⟨c0 :: t2⟩ c0 t2 rfl
    (jsonWs_false_of_rustIsWs_false c0 hws) hstart


theorem extract_prose (s pre post : String) (sl : List Char)
    (hsl : s.toList = sl)
    (hextract : extract_first_json_object s = some s)
    (hpreBr : ∀ c ∈ pre.toList, c ≠ '\x7b' ∧ c ≠ '\x7d') :
    extract_first_json_object (pre ++ s ++ post) = some s := by
  have hcl : (pre ++ s ++ post).toList =
      pre.toList ++ (s.toList ++ post.toList) := by
    show (pre ++ s ++ post).data = _
    rw [String.data_append, String.data_append, List.append_assoc]
    rfl
  have haux : extract_first_json_object_aux s.toList 0 none = some s.toList := by
    unfold extract_first_json_object at hextract
    cases hx : extract_first_json_object_aux s.toList 0 none with
    | none => rw [hx] at hextract; cases hextract
    | some a =>
      rw [hx] at hextract
      simp only [Option.map_some'] at hextract
      have ha : a = s.toList := congrArg String.data (Option.some.inj hextract)
      rw [ha]
  unfold extract_first_json_object
  rw [hcl, efjoAux_skip pre.toList hpreBr (s.toList ++ post.toList),
    efjoAux_append post.toList s.toList 0 none s.toList haux]
  simp


/-- Claim C7 (amended): the three presentation forms — clean JSON, a
`json`-tagged fenced block, and JSON wrapped in extraneous prose — all
yield the identical translations array, provided the object's raw text
is brace-balanced at the byte level (its first balanced-brace slice is
the whole object, as holds whenever its strings avoid brace characters)
and the leading prose is brace-free and does not itself look like the
start of a JSON value or a code fence.  Without the brace conditions the
equivalence fails (see the counterexample). -/
theorem claim_C7 (s pre post : String) (mid : List Char) (out : List String)
    (hs : s.toList = '\x7b' :: (mid ++ ['\x7d']))
    (hdirect : parseDirect s = some out)
    (hextract : extract_first_json_object s = some s)
    (c0 : Char) (t0 : List Char) (hpre : pre.toList = c0 :: t0)
    (hc0ws : rustIsWs c0 = false) (hc0start : jsonStart c0 = false)
    (hc0bt : c0 ≠ '`')
    (hpreBr : ∀ c ∈ pre.toList, c ≠ '\x7b' ∧ c ≠ '\x7d') :
    parseTranslationsContent s = some out ∧
    parseTranslationsContent ("```json\n" ++ s ++ "\n```") = some out ∧
    parseTranslationsContent (pre ++ s ++ post) = some out := by
  have hclean : try_parse_translations_json s = some out := by
    rw [tryParse_of_shape s mid hs, hdirect]
  refine ⟨?_, ?_, ?_⟩
  · unfold parseTranslationsContent
    rw [hclean]
  · unfold parseTranslationsContent
    rw [tryParse_fenced s mid hs, hdirect]
  · have hcl : (pre ++ s ++ post).toList = c0 :: (t0 ++ (s.toList ++ post.toList)) := by
      show (pre ++ s ++ post).data = _
      rw [String.data_append, String.data_append]
      show pre.toList ++ s.toList ++ post.toList = _
      rw [hpre]
      simp [List.append_assoc]
    unfold parseTranslationsContent
    rw [tryParse_prose_none (pre ++ s ++ post) c0 (t0 ++ (s.toList ++ post.toList))
      hcl hc0ws hc0start hc0bt]
    rw [extract_prose s pre post s.toList rfl hextract hpreBr]
    exact hclean


/-- Claim C7, counterexample to the claim as stated (no brace
conditions): the object `\x7b"translations":["\x7d"]\x7d` — whose single
translation is the string `"\x7d"` — parses cleanly, but embedded in
prose the brace scanner cuts at the brace inside the string literal and
the tolerant parse yields nothing instead of the identical array. -/
theorem claim_C7_counterexample :
    parseTranslationsContent "\x7b\"translations\":[\"\x7d\"]\x7d" = some ["\x7d"] ∧
    parseTranslationsContent "note: \x7b\"translations\":[\"\x7d\"]\x7d" = none :=
  ⟨rfl, rfl⟩


/-- Claim C7, witness: a clean two-string object, its fenced form, and a
prose-wrapped form all give the same array. -/
theorem claim_C7_witness :
    parseTranslationsContent "\x7b\"translations\":[\"a\",\"b\"]\x7d" = some ["a", "b"] ∧
    parseTranslationsContent
      ("```json\n" ++ "\x7b\"translations\":[\"a\",\"b\"]\x7d" ++ "\n```") =
      some ["a", "b"] ∧
    parseTranslationsContent
      ("Here: " ++ "\x7b\"translations\":[\"a\",\"b\"]\x7d" ++ " thanks") =
      some ["a", "b"] :=
  claim_C7 "\x7b\"translations\":[\"a\",\"b\"]\x7d" "Here: " " thanks"
    ("\"translations\":[\"a\",\"b\"]".toList) ["a", "b"]
    rfl rfl rfl 'H' ("ere: ".toList) rfl rfl rfl (by decide) (by decide)


end JP2TW
